import Mathlib

/-!
Verification of the Arabic-Morphology backend (AVL root index, pattern hash
table, morphological engine) against its natural-language specification.

The Python sources are shallowly embedded: strings are Lean `String`s
(compared, as in Python, by code-point-lexicographic order on their character
lists), dictionaries are association lists in insertion order, and the mutable
`size`/`count` bookkeeping is threaded explicitly.
-/

/-- Python's `<` on `str` is code-point-lexicographic comparison; on Lean
strings that is exactly `<` on the underlying character lists. -/
def strLt (a b : String) : Prop := a.toList < b.toList

instance (a b : String) : Decidable (strLt a b) :=
  inferInstanceAs (Decidable (a.toList < b.toList))

theorem strLt_iff (a b : String) : strLt a b ↔ a < b :=
  String.lt_iff_toList_lt.symm

theorem strLt_trans {a b c : String} (h1 : strLt a b) (h2 : strLt b c) : strLt a c := by
  rw [strLt_iff] at h1 h2 ⊢; exact lt_trans h1 h2

theorem strLt_asymm {a b : String} (h : strLt a b) : ¬ strLt b a := by
  rw [strLt_iff] at h ⊢; exact lt_asymm h

theorem strLt_irrefl (a : String) : ¬ strLt a a := by
  rw [strLt_iff]; exact lt_irrefl a

theorem strLt_ne {a b : String} (h : strLt a b) : a ≠ b := by
  rw [strLt_iff] at h; exact ne_of_lt h

theorem strLt_trichotomy (a b : String) : strLt a b ∨ a = b ∨ strLt b a := by
  rcases lt_trichotomy a b with h | h | h
  · exact Or.inl ((strLt_iff a b).mpr h)
  · exact Or.inr (Or.inl h)
  · exact Or.inr (Or.inr ((strLt_iff b a).mpr h))

theorem eq_of_not_strLt {a b : String} (h1 : ¬ strLt a b) (h2 : ¬ strLt b a) : a = b := by
  rcases strLt_trichotomy a b with h | h | h
  · exact absurd h h1
  · exact h
  · exact absurd h h2

namespace Morph

/-! ### Embedding of src/backend/morphology.py (`MorphologicalEngine`) -/

/-- `MorphologicalEngine.WEAK_LETTERS`. -/
def WEAK_LETTERS : List Char := ['و', 'ي']

/-- `MorphologicalEngine.EMPHATIC`. -/
def EMPHATIC : List Char := ['ص', 'ض', 'ط', 'ظ']

/-- `MorphologicalEngine.DENTAL`. -/
def DENTAL : List Char := ['د', 'ذ', 'ز']

/-- `MorphologicalEngine.LABIAL`. -/
def LABIAL : List Char := ['ب', 'م']

/-- Fatha diacritic U+064E. -/
def fatha : Char := Char.ofNat 0x64E

/-- Damma diacritic U+064F. -/
def damma : Char := Char.ofNat 0x64F

/-- Kasra diacritic U+0650. -/
def kasra : Char := Char.ofNat 0x650

/-- Shadda (gemination mark) U+0651. -/
def shadda : Char := Char.ofNat 0x651

/-- One step of Python's `str.replace` with an explicit fuel argument.
`str.replace` scans left to right replacing non-overlapping occurrences.
The code only ever calls it with non-empty needles, so each step consumes at
least one character and fuel equal to the word length suffices. -/
def replaceFuel (pat rep : List Char) : Nat → List Char → List Char
  | _, [] => []
  | 0, l => l
  | fuel + 1, c :: rest =>
    if 0 < pat.length ∧ (c :: rest).take pat.length = pat then
      rep ++ replaceFuel pat rep fuel ((c :: rest).drop pat.length)
    else
      c :: replaceFuel pat rep fuel rest

/-- Python `s.replace(pat, rep)` for the non-empty needles used by the code. -/
def pyReplace (s pat rep : List Char) : List Char :=
  replaceFuel pat rep s.length s

/-- Result variants of `MorphologicalEngine.is_weak_root` (the position
component is determined by the variant and is not modelled separately). -/
inductive Weakness where
  | assimilated
  | hollow
  | defective
  | doubled
  | sound
deriving DecidableEq, Repr

/-- `MorphologicalEngine.is_weak_root`: any non-3-character root is `sound`. -/
def isWeakRoot (root : List Char) : Weakness :=
  match root with
  | [c1, c2, c3] =>
    if c1 ∈ WEAK_LETTERS then .assimilated
    else if c2 ∈ WEAK_LETTERS then .hollow
    else if c3 ∈ WEAK_LETTERS then .defective
    else if c2 = c3 then .doubled
    else .sound
  | _ => .sound

/-- `MorphologicalEngine.apply_form8_assimilation`. -/
def applyForm8Assimilation (word root : List Char) : List Char :=
  match root with
  | [c1, _, _] =>
    if c1 ∈ EMPHATIC then pyReplace word [c1, 'ت'] [c1, 'ط']
    else if c1 ∈ DENTAL then pyReplace word [c1, 'ت'] [c1, shadda]
    else if c1 = 'ث' then pyReplace word ['ث', 'ت'] ['ث', shadda]
    else word
  | _ => word

/-- `MorphologicalEngine.apply_form7_assimilation`. -/
def applyForm7Assimilation (word root : List Char) : List Char :=
  match root with
  | [c1, _, _] =>
    if c1 ∈ LABIAL then pyReplace word ['ن', c1] ['م', c1] else word
  | _ => word

/-- `MorphologicalEngine.apply_hollow_root_rules`. -/
def applyHollowRootRules (word root : List Char) : List Char :=
  match root with
  | [c1, c2, _] =>
    if c2 ∈ WEAK_LETTERS then
      if c2 = 'و' then
        let w1 := pyReplace word [c1, fatha, 'و'] [c1, fatha, 'ا']
        let w2 := pyReplace w1 [c1, damma, 'و'] [c1, damma, 'و']
        pyReplace w2 [c1, kasra, 'و'] [c1, kasra, 'ي']
      else if c2 = 'ي' then
        let w1 := pyReplace word [c1, fatha, 'ي'] [c1, fatha, 'ا']
        let w2 := pyReplace w1 [c1, kasra, 'ي'] [c1, kasra, 'ي']
        pyReplace w2 [c1, damma, 'ي'] [c1, damma, 'و']
      else word
    else word
  | _ => word

/-- `MorphologicalEngine.apply_defective_root_rules`; `word.endswith(c3)` for a
single character is: the last character equals `c3`. -/
def applyDefectiveRootRules (word root : List Char) : List Char :=
  match root with
  | [_, _, c3] =>
    if c3 ∈ WEAK_LETTERS then
      if word.getLast? = some c3 then word.dropLast ++ ['ى'] else word
    else word
  | _ => word

/-- `MorphologicalEngine.apply_phonological_rules` (the `pattern` argument is
accepted and ignored, as in the source). -/
def applyPhonologicalRules (word root _pattern : List Char) : List Char :=
  if root.length ≠ 3 then word
  else
    let w1 :=
      match isWeakRoot root with
      | .hollow => applyHollowRootRules word root
      | .defective => applyDefectiveRootRules word root
      | _ => word
    let w2 := applyForm8Assimilation w1 root
    let w3 := applyForm7Assimilation w2 root
    pyReplace w3 [shadda, shadda] [shadda]

/-- The per-character marker substitution of the scanning loop inside
`MorphologicalEngine.apply_root_to_pattern`. -/
def substMarker (fa ayn lam : Char) (c : Char) : Char :=
  if c = 'ف' then fa
  else if c = 'ع' then ayn
  else if c = 'ل' then lam
  else if c = '1' then fa
  else if c = '2' then ayn
  else if c = '3' then lam
  else if c = 'F' then fa
  else if c = 'A' then ayn
  else if c = 'L' then lam
  else c

/-- `MorphologicalEngine.apply_root_to_pattern`. -/
def applyRootToPattern (root pattern : String) : String :=
  match root.toList with
  | [fa, ayn, lam] =>
    let result := pattern.toList.map (substMarker fa ayn lam)
    ⟨applyPhonologicalRules result [fa, ayn, lam] pattern.toList⟩
  | _ => ""

/-- The scanning loop of `MorphologicalEngine.validate_word`. -/
def validateScan (word root : String) : List String → Bool × Option String
  | [] => (false, none)
  | tpl :: rest =>
    if applyRootToPattern root tpl = word then (true, some tpl)
    else validateScan word root rest

/-- `MorphologicalEngine.validate_word`. -/
def validateWord (word root : String) (allPatterns : List String) : Bool × Option String :=
  if root.length ≠ 3 then (false, none)
  else validateScan word root allPatterns

/-- `MorphologicalEngine.generate_derivatives`; a pair is kept when the
generated word is truthy, i.e. non-empty. -/
def generateDerivatives (root : String) (allPatterns : List String) : List (String × String) :=
  if root.length ≠ 3 then []
  else
    allPatterns.filterMap (fun tpl =>
      let w := applyRootToPattern root tpl
      if w ≠ "" then some (tpl, w) else none)

theorem validateScan_of_mem {word root : String} {patterns : List String}
    (h : ∃ t ∈ patterns, applyRootToPattern root t = word) :
    ∃ tpl2, validateScan word root patterns = (true, some tpl2) ∧
      tpl2 ∈ patterns ∧ applyRootToPattern root tpl2 = word := by
  induction patterns with
  | nil => rcases h with ⟨t, ht, _⟩; cases ht
  | cons p rest ih =>
    by_cases hp : applyRootToPattern root p = word
    · exact ⟨p, by simp [validateScan, hp], List.mem_cons_self p rest, hp⟩
    · rcases h with ⟨t, ht, hw⟩
      rcases List.mem_cons.mp ht with rfl | ht'
      · exact absurd hw hp
      · rcases ih ⟨t, ht', hw⟩ with ⟨tpl2, h1, h2, h3⟩
        exact ⟨tpl2, by simp [validateScan, hp, h1], List.mem_cons_of_mem _ h2, h3⟩

end Morph

/-- C1: the spec (and the docstring of `apply_root_to_pattern` itself) claims
`applyRootToPattern("كتب","فَاعِل") == "كاتب"` and
`applyRootToPattern("علم","فَاعِل") == "عالم"`, but the code copies the
pattern's fatha and kasra diacritics through unchanged, so it actually returns
"كَاتِب" and "عَالِم", which are different strings from the undiacritised
words the claim names. -/
theorem spec_c1_divergence :
    Morph.applyRootToPattern "كتب" "فَاعِل" = "كَاتِب" ∧
    Morph.applyRootToPattern "علم" "فَاعِل" = "عَالِم" ∧
    ("كَاتِب" : String) ≠ "كاتب" ∧ ("عَالِم" : String) ≠ "عالم" := by
  exact ⟨by decide, by decide, by decide, by decide⟩

/-- C7: every pair {template, generatedWord} produced by
`generate_derivatives(root, patterns)` for a 3-character root is validated by
`validate_word(generatedWord, root, patterns)`: validation returns `true`
together with some template of the list (the first one in iteration order that
generates the word), and that template indeed generates the word. -/
theorem spec_c7_roundtrip (root : String) (patterns : List String) (tpl w : String)
    (h3 : root.length = 3)
    (hmem : (tpl, w) ∈ Morph.generateDerivatives root patterns) :
    ∃ tpl2, Morph.validateWord w root patterns = (true, some tpl2) ∧
      tpl2 ∈ patterns ∧ Morph.applyRootToPattern root tpl2 = w := by
  have hgen : ∃ t ∈ patterns, Morph.applyRootToPattern root t = w := by
    unfold Morph.generateDerivatives at hmem
    rw [if_neg (by simp [h3])] at hmem
    rcases List.mem_filterMap.mp hmem with ⟨t, ht, heq⟩
    refine ⟨t, ht, ?_⟩
    by_cases hw : Morph.applyRootToPattern root t = ""
    · simp [hw] at heq
    · simp only [hw, ne_eq, not_false_eq_true, if_true, Option.some.injEq, Prod.mk.injEq] at heq
      exact heq.2
  have := Morph.validateScan_of_mem hgen
  rcases this with ⟨tpl2, h1, h2, h3'⟩
  exact ⟨tpl2, by simp [Morph.validateWord, h3, h1], h2, h3'⟩

/-- Witness for C7 at the concrete root "كتب" and pattern list ["فَاعِل"]. -/
theorem spec_c7_roundtrip_witness :
    ("كتب" : String).length = 3 ∧
    ("فَاعِل", "كَاتِب") ∈ Morph.generateDerivatives "كتب" ["فَاعِل"] ∧
    ∃ tpl2, Morph.validateWord "كَاتِب" "كتب" ["فَاعِل"] = (true, some tpl2) ∧
      tpl2 ∈ ["فَاعِل"] ∧ Morph.applyRootToPattern "كتب" tpl2 = "كَاتِب" :=
  ⟨by decide, by decide,
    spec_c7_roundtrip "كتب" ["فَاعِل"] "فَاعِل" "كَاتِب" (by decide) (by decide)⟩

namespace Hash

/-! ### Embedding of src/backend/hashtable.py (`HashTable`) -/

/-- The modulus `10**9 + 7` of the polynomial rolling hash. -/
def HMOD : Nat := 10 ^ 9 + 7

/-- The accumulation loop of `HashTable._polynomial_hash` before the final
reduction modulo the table size: `h := (h * 31 + ord(char)) % (10**9 + 7)`. -/
def polyHashRaw (template : List Char) : Nat :=
  template.foldl (fun h c => (h * 31 + c.toNat) % HMOD) 0

/-- `HashEntry`: a chain node owning the template and its `hash_value` field. -/
structure HashEntry where
  template : String
  hashValue : Nat
deriving DecidableEq, Repr

/-- `HashTable`: fixed bucket array (list of chains, chain head = most recent
insertion), live entry count, table size fixed at construction. -/
structure HashTable where
  size : Nat
  table : List (List HashEntry)
  count : Int
deriving DecidableEq, Repr

/-- `HashTable.__init__(initial_size)`. -/
def mkTable (initialSize : Nat) : HashTable :=
  { size := initialSize, table := List.replicate initialSize [], count := 0 }

/-- The default table, `HashTable()` with `initial_size = 101`. -/
def defaultTable : HashTable := mkTable 101

/-- `HashTable._polynomial_hash`: note that the returned value is ALREADY
reduced modulo the table size (this is the bucket index). -/
def polynomialHash (ht : HashTable) (template : String) : Nat :=
  polyHashRaw template.toList % ht.size

/-- `HashTable._compute_full_hash`: despite its name, the source merely calls
`_polynomial_hash`, so the "full hash" it returns is the bucket index. -/
def computeFullHash (ht : HashTable) (template : String) : Nat :=
  polynomialHash ht template

/-- `HashTable.exists`: scan of the bucket chain the template hashes to. -/
def existsTpl (ht : HashTable) (template : String) : Bool :=
  (ht.table.getD (polynomialHash ht template) []).any (fun e => e.template = template)

/-- Result messages of the mutating hash-table operations. -/
inductive PatMsg where
  | insertedOk (t : String)
  | alreadyExists (t : String)
  | deletedOk (t : String)
  | notFound (t : String)
  | updatedOk (o n : String)
  | updateFailed
deriving DecidableEq, Repr

/-- `HashTable.put`: reject duplicates, else prepend a fresh entry to the
bucket chain and increment the count. -/
def put (ht : HashTable) (template : String) : HashTable × Bool × PatMsg :=
  if existsTpl ht template then (ht, false, .alreadyExists template)
  else
    let idx := polynomialHash ht template
    let hv := computeFullHash ht template
    let chain := ht.table.getD idx []
    ({ ht with table := ht.table.set idx (⟨template, hv⟩ :: chain), count := ht.count + 1 },
      true, .insertedOk template)

/-- The chain walk of `HashTable.delete`: unlink the first matching entry,
`none` when the template is not in the chain. -/
def deleteChain : List HashEntry → String → Option (List HashEntry)
  | [], _ => none
  | e :: rest, t =>
    if e.template = t then some rest
    else (deleteChain rest t).map (fun c => e :: c)

/-- `HashTable.delete`. -/
def delete (ht : HashTable) (template : String) : HashTable × Bool × PatMsg :=
  let idx := polynomialHash ht template
  match deleteChain (ht.table.getD idx []) template with
  | some chain2 =>
      ({ ht with table := ht.table.set idx chain2, count := ht.count - 1 },
        true, .deletedOk template)
  | none => (ht, false, .notFound template)

/-- `HashTable.update`: fails if old absent or new present-and-different,
otherwise delete old then put new; the result of `put` is ignored. -/
def update (ht : HashTable) (oldT newT : String) : HashTable × Bool × PatMsg :=
  if ¬ existsTpl ht oldT then (ht, false, .notFound oldT)
  else if oldT ≠ newT ∧ existsTpl ht newT then (ht, false, .alreadyExists newT)
  else
    let d := delete ht oldT
    if d.2.1 then ((put d.1 newT).1, true, .updatedOk oldT newT)
    else (d.1, false, .updateFailed)

/-- All stored templates in bucket order then chain order (the flattening the
table iterates over in `get_all_patterns` before sorting). -/
def allTemplates (ht : HashTable) : List String :=
  (ht.table.map (fun chain => chain.map (fun e => e.template))).flatten

/-- Reachable-state wellformedness of a hash table: the bucket array has
`size` buckets, every entry sits in the bucket its template hashes to, no
template is stored twice, and `count` agrees with the number of entries. -/
def WFTable (ht : HashTable) : Prop :=
  ht.table.length = ht.size ∧ 0 < ht.size ∧
  (∀ i < ht.table.length, ∀ e ∈ ht.table.getD i [], polynomialHash ht e.template = i) ∧
  (allTemplates ht).Nodup ∧
  ht.count = (allTemplates ht).length

instance (ht : HashTable) : Decidable (WFTable ht) := by
  unfold WFTable
  infer_instance

end Hash

namespace Hash

theorem getD_set_self {α : Type} (d : α) {l : List α} {i : Nat} (h : i < l.length) (v : α) :
    (l.set i v).getD i d = v := by
  rw [List.getD_eq_getElem?_getD, List.getElem?_set_self (by simpa using h)]
  rfl

theorem getD_eq_getElem {α : Type} (d : α) {l : List α} {i : Nat} (h : i < l.length) :
    l.getD i d = l[i] := by
  rw [List.getD_eq_getElem?_getD, List.getElem?_eq_getElem h]
  rfl

theorem deleteChain_split {chain : List HashEntry} {t : String}
    (h : ∃ e ∈ chain, e.template = t) :
    ∃ c1 e c2, chain = c1 ++ e :: c2 ∧ e.template = t ∧
      (∀ e2 ∈ c1, e2.template ≠ t) ∧ deleteChain chain t = some (c1 ++ c2) := by
  induction chain with
  | nil => simp at h
  | cons a rest ih =>
    by_cases ha : a.template = t
    · exact ⟨[], a, rest, rfl, ha, by simp, by simp [deleteChain, ha]⟩
    · have h' : ∃ e ∈ rest, e.template = t := by
        rcases h with ⟨e, he, het⟩
        rcases List.mem_cons.mp he with rfl | hm
        · exact absurd het ha
        · exact ⟨e, hm, het⟩
      rcases ih h' with ⟨c1, e, c2, hc, het, hc1, hdel⟩
      refine ⟨a :: c1, e, c2, by simp [hc], het, ?_, by simp [deleteChain, ha, hdel]⟩
      intro e2 he2
      rcases List.mem_cons.mp he2 with rfl | hm
      · exact ha
      · exact hc1 e2 hm

/-- C10: for a template `t` stored in a wellformed pattern table,
`update(t, t)` returns success, the multiset of stored templates and the
entry count are unchanged, and `t` remains present exactly once. -/
theorem spec_c10_update_same (ht : HashTable) (t : String)
    (hwf : WFTable ht) (hex : existsTpl ht t = true) :
    (update ht t t).2.1 = true ∧
    (update ht t t).1.count = ht.count ∧
    (allTemplates (update ht t t).1).Perm (allTemplates ht) ∧
    (allTemplates (update ht t t).1).count t = 1 := by
  obtain ⟨hlen, hpos, hbucket, hnodup, hcount⟩ := hwf
  set idx := polynomialHash ht t with hidxdef
  have hidx : idx < ht.table.length := by
    rw [hlen]
    exact Nat.mod_lt _ hpos
  set chain := ht.table.getD idx [] with hchaindef
  -- the template is in its bucket chain
  have hmem : ∃ e ∈ chain, e.template = t := by
    rw [existsTpl] at hex
    rcases List.any_eq_true.mp hex with ⟨e, he, het⟩
    exact ⟨e, he, by simpa using het⟩
  rcases deleteChain_split hmem with ⟨c1, e, c2, hc, het, hc1, hdel⟩
  -- the delete step
  have hdelete : delete ht t =
      ({ ht with table := ht.table.set idx (c1 ++ c2), count := ht.count - 1 },
        true, .deletedOk t) := by
    rw [delete]
    rw [← hidxdef, ← hchaindef, hdel]
  -- decompose the flattened template list around bucket idx
  have htab : ht.table = ht.table.take idx ++ ht.table[idx] :: ht.table.drop (idx + 1) := by
    conv_lhs => rw [← List.take_append_drop idx ht.table]
    rw [List.drop_eq_getElem_cons hidx]
  have hchain_get : chain = ht.table[idx] := getD_eq_getElem [] hidx
  have hallT : allTemplates ht =
      ((ht.table.take idx).map (fun c => c.map (fun e => e.template))).flatten ++
      (chain.map (fun e => e.template) ++
        ((ht.table.drop (idx + 1)).map (fun c => c.map (fun e => e.template))).flatten) := by
    rw [allTemplates]
    conv_lhs => rw [htab]
    rw [List.map_append, List.map_cons, List.flatten_append, List.flatten_cons, hchain_get]
  -- the table after the delete step
  set ht1 : HashTable := { ht with table := ht.table.set idx (c1 ++ c2), count := ht.count - 1 } with hht1
  set ht2 : HashTable := { ht with table := ht.table.set idx ((⟨t, idx⟩ : HashEntry) :: (c1 ++ c2)), count := ht.count - 1 + 1 } with hht2
  have hset_decomp : ∀ v : List HashEntry,
      ht.table.set idx v = ht.table.take idx ++ v :: ht.table.drop (idx + 1) :=
    fun v => List.set_eq_take_cons_drop v hidx
  -- chain templates are nodup (from global nodup)
  have hchain_nodup : (chain.map (fun e => e.template)).Nodup := by
    rw [hallT] at hnodup
    exact (hnodup.of_append_right).of_append_left
  have hmapchain : chain.map (fun e => e.template) =
      c1.map (fun e => e.template) ++ t :: c2.map (fun e => e.template) := by
    rw [hc]; simp [het]
  -- no entry of c1 ++ c2 has template t
  have hnot : ∀ e2 ∈ c1 ++ c2, e2.template ≠ t := by
    have hnotc2 : ∀ e2 ∈ c2, e2.template ≠ t := by
      rw [hmapchain] at hchain_nodup
      have h2 := hchain_nodup.of_append_right
      rw [List.nodup_cons] at h2
      intro e2 he2 habs
      exact h2.1 (habs ▸ List.mem_map_of_mem _ he2)
    intro e2 he2
    rcases List.mem_append.mp he2 with hm | hm
    · exact hc1 e2 hm
    · exact hnotc2 e2 hm
  -- after the delete, t is no longer present
  have hex1 : existsTpl ht1 t = false := by
    have h1 : existsTpl ht1 t =
        ((ht.table.set idx (c1 ++ c2)).getD idx []).any (fun e2 => e2.template = t) := rfl
    rw [h1, getD_set_self [] hidx, List.any_eq_false]
    intro e2 he2
    simpa using hnot e2 he2
  -- evaluate the update
  have hupdate : update ht t t = ((put ht1 t).1, true, .updatedOk t t) := by
    rw [update, if_neg (by simp [hex]), if_neg (by simp), hdelete]
    rfl
  have hput : (put ht1 t).1 = ht2 := by
    have hph : polynomialHash ht1 t = idx := rfl
    have hcfh : computeFullHash ht1 t = idx := rfl
    have hgd : ht1.table.getD idx [] = c1 ++ c2 := getD_set_self [] hidx _
    simp only [put, hex1, Bool.false_eq_true, if_false, hph, hcfh, hgd]
    rw [hht2, List.set_set]
  rw [hupdate, hput]
  -- flattened template list of the final table
  have hallT2 : allTemplates ht2 =
      ((ht.table.take idx).map (fun c => c.map (fun e => e.template))).flatten ++
      ((t :: ((c1 ++ c2).map (fun e => e.template))) ++
        ((ht.table.drop (idx + 1)).map (fun c => c.map (fun e => e.template))).flatten) := by
    rw [allTemplates, hht2]
    simp only
    rw [hset_decomp]
    rw [List.map_append, List.map_cons, List.flatten_append, List.flatten_cons]
    simp
  have hperm : (allTemplates ht2).Perm (allTemplates ht) := by
    rw [hallT2, hallT]
    refine List.Perm.append_left _ (List.Perm.append_right _ ?_)
    rw [hmapchain, List.map_append]
    exact List.perm_middle.symm
  refine ⟨rfl, ?_, hperm, ?_⟩
  · rw [hht2]
    simp only
    omega
  · rw [hperm.count_eq]
    refine List.count_eq_one_of_mem hnodup ?_
    rw [hallT]
    refine List.mem_append.mpr (Or.inr (List.mem_append.mpr (Or.inl ?_)))
    rw [hc]
    simp [het]

end Hash

namespace Hash

/-- A small concrete wellformed table used as a witness state: a 5-bucket
table holding two patterns. -/
def wtab : HashTable := (put (put (mkTable 5) "فَاعِل").1 "مَفعُول").1

/-- C9: the spec claims every stored `HashEntry` holds the pattern's full
polynomial rolling hash (the 31-weighted sum modulo 1000000007, before
reduction modulo the table size), distinct from the bucket index. In the code
`_compute_full_hash` simply calls `_polynomial_hash`, which already reduces
modulo the table size, so the stored `hash_value` IS the bucket index: for
the pattern "فَاعِل" in the default 101-bucket table the full rolling hash is
374336714 but the stored value is the bucket index 10. -/
theorem spec_c9_divergence :
    Hash.polyHashRaw ("فَاعِل").toList = 374336714 ∧
    (Hash.put Hash.defaultTable "فَاعِل").1.table.getD 10 [] =
      [{ template := "فَاعِل", hashValue := 10 }] ∧
    Hash.polynomialHash Hash.defaultTable "فَاعِل" = 10 ∧
    (374336714 : Nat) % Hash.HMOD = 374336714 ∧
    (374336714 : Nat) ≠ 10 := by
  refine ⟨by decide, by decide, by decide, by decide, by decide⟩

/-- Witness for C10 at the concrete table `wtab` and template "فَاعِل". -/
theorem spec_c10_update_same_witness :
    WFTable wtab ∧ existsTpl wtab "فَاعِل" = true ∧
    ((update wtab "فَاعِل" "فَاعِل").2.1 = true ∧
     (update wtab "فَاعِل" "فَاعِل").1.count = wtab.count ∧
     (allTemplates (update wtab "فَاعِل" "فَاعِل").1).Perm (allTemplates wtab) ∧
     (allTemplates (update wtab "فَاعِل" "فَاعِل").1).count "فَاعِل" = 1) :=
  ⟨by decide, by decide, spec_c10_update_same wtab "فَاعِل" (by decide) (by decide)⟩

end Hash

namespace Avl

/-! ### Embedding of src/backend/avl.py (`AVLNode` / `AVLTree`)

`Node.leaf` stands for Python's `None` child. Stored heights are modelled as
written; the mutable `self.size` counter is threaded as an explicit delta
through the recursive insert/delete helpers. Key comparison is `strLt`,
Python's code-point-lexicographic `<` on strings. -/

/-- A derived-word record `{"template": ..., "frequency": ...}`. -/
structure DW where
  template : String
  frequency : Nat
deriving DecidableEq, Repr

/-- The `derived_words` dictionary of a node, in insertion order. -/
abbrev DWMap := List (String × DW)

/-- A tree node (or `None`). Constructor argument order: left child, key
(`node.root` in the source), `derived_words`, right child, stored height. -/
inductive Node where
  | leaf
  | node (left : Node) (key : String) (dw : DWMap) (right : Node) (height : Nat)
deriving DecidableEq, Repr

/-- `AVLTree._get_height`: stored height, 0 for `None`. -/
def getHeight : Node → Nat
  | .leaf => 0
  | .node _ _ _ _ h => h

/-- Access `node.root`; the `.leaf` case is unreachable wherever the source
dereferences a child it has just checked to exist. -/
def keyOf : Node → String
  | .leaf => ""
  | .node _ k _ _ _ => k

/-- Access `node.derived_words`; `.leaf` is unreachable as in `keyOf`. -/
def dwOf : Node → DWMap
  | .leaf => []
  | .node _ _ dw _ _ => dw

/-- `AVLTree._get_balance_factor` (on stored heights). -/
def balanceFactor : Node → Int
  | .leaf => 0
  | .node l _ _ r _ => (getHeight l : Int) - getHeight r

/-- `AVLTree._rotate_right`; Python raises on a missing left child, which
never happens at its call sites, so that case is the identity here. -/
def rotateRight : Node → Node
  | .node (.node a p pdw b _) key dw r _ =>
    let inner : Node := .node b key dw r (1 + max (getHeight b) (getHeight r))
    .node a p pdw inner (1 + max (getHeight a) (getHeight inner))
  | t => t

/-- `AVLTree._rotate_left`; missing-right-child case as in `rotateRight`. -/
def rotateLeft : Node → Node
  | .node l key dw (.node b q qdw c _) _ =>
    let inner : Node := .node l key dw b (1 + max (getHeight l) (getHeight b))
    .node inner q qdw c (1 + max (getHeight inner) (getHeight c))
  | t => t

/-- The height-update and rebalance tail of `AVLTree._insert_recursive`
(lines 111-135): height refresh, then the four key-comparison-guarded
rotation cases, in source order. `k` is the key being inserted. -/
def insertRebalance (l : Node) (key : String) (dw : DWMap) (r : Node) (k : String) : Node :=
  let n : Node := .node l key dw r (1 + max (getHeight l) (getHeight r))
  let bf := balanceFactor n
  if bf > 1 ∧ strLt k (keyOf l) then rotateRight n
  else if bf < -1 ∧ strLt (keyOf r) k then rotateLeft n
  else if bf > 1 ∧ strLt (keyOf l) k then
    rotateRight (.node (rotateLeft l) key dw r (1 + max (getHeight l) (getHeight r)))
  else if bf < -1 ∧ strLt k (keyOf r) then
    rotateLeft (.node l key dw (rotateRight r) (1 + max (getHeight l) (getHeight r)))
  else n

/-- `AVLTree._insert_recursive`; the second component is the increment the
Python code applies to `self.size` (1 exactly when a node is created). -/
def insertRec : Node → String → Node × Nat
  | .leaf, k => (.node .leaf k [] .leaf 1, 1)
  | .node l key dw r h, k =>
    if strLt k key then
      (insertRebalance (insertRec l k).1 key dw r k, (insertRec l k).2)
    else if strLt key k then
      (insertRebalance l key dw (insertRec r k).1 k, (insertRec r k).2)
    else
      (.node l key dw r h, 0)

/-- `AVLTree._search_recursive`. -/
def searchRec : Node → String → Bool
  | .leaf, _ => false
  | .node l key _ r _, k =>
    if k = key then true
    else if strLt k key then searchRec l k
    else searchRec r k

/-- `AVLTree._get_node` composed with reading `derived_words`. -/
def getDW : Node → String → Option DWMap
  | .leaf, _ => none
  | .node l key dw r _, k =>
    if k = key then some dw
    else if strLt k key then getDW l k
    else getDW r k

/-- `AVLTree._get_node` returning the found subtree itself. -/
def getNode : Node → String → Option Node
  | .leaf, _ => none
  | .node l key dw r h, k =>
    if k = key then some (.node l key dw r h)
    else if strLt k key then getNode l k
    else getNode r k

/-- In-place assignment `get_node(k).derived_words = m` (used by `update`);
a missing key leaves the tree unchanged, mirroring the `if new_node:` guard. -/
def setDW : Node → String → DWMap → Node
  | .leaf, _, _ => .leaf
  | .node l key dw r h, k, m =>
    if k = key then .node l key m r h
    else if strLt k key then .node (setDW l k m) key dw r h
    else .node l key dw (setDW r k m) h

/-- `AVLTree._get_min_node`: leftmost node of a non-empty subtree. -/
def getMinNode : Node → Node
  | .leaf => .leaf
  | .node .leaf key dw r h => .node .leaf key dw r h
  | .node (.node a p pdw b hh) _ _ _ _ => getMinNode (.node a p pdw b hh)

/-- The height-update and rebalance tail of `AVLTree._delete_recursive`
(lines 277-298): balance-factor-guarded single/double rotations. -/
def deleteRebalance (l : Node) (key : String) (dw : DWMap) (r : Node) : Node :=
  let n : Node := .node l key dw r (1 + max (getHeight l) (getHeight r))
  let bf := balanceFactor n
  if bf > 1 then
    if balanceFactor l ≥ 0 then rotateRight n
    else rotateRight (.node (rotateLeft l) key dw r (1 + max (getHeight l) (getHeight r)))
  else if bf < -1 then
    if balanceFactor r ≤ 0 then rotateLeft n
    else rotateLeft (.node l key dw (rotateRight r) (1 + max (getHeight l) (getHeight r)))
  else n

/-- `AVLTree._delete_recursive`; the second component is the net change the
Python code applies to `self.size` along this call (the source decrements on
the found node, and in the two-children case the recursive delete of the
in-order successor decrements again before the compensating `+= 1`). -/
def deleteRec : Node → String → Node × Int
  | .leaf, _ => (.leaf, 0)
  | .node l key dw r h, k =>
    if strLt k key then
      (deleteRebalance (deleteRec l k).1 key dw r, (deleteRec l k).2)
    else if strLt key k then
      (deleteRebalance l key dw (deleteRec r k).1, (deleteRec r k).2)
    else
      match l, r with
      | .leaf, _ => (r, -1)
      | .node a b c d e, .leaf => (.node a b c d e, -1)
      | .node a b c d e, .node a2 b2 c2 d2 e2 =>
        (deleteRebalance (.node a b c d e)
          (keyOf (getMinNode (.node a2 b2 c2 d2 e2)))
          (dwOf (getMinNode (.node a2 b2 c2 d2 e2)))
          (deleteRec (.node a2 b2 c2 d2 e2) (keyOf (getMinNode (.node a2 b2 c2 d2 e2)))).1,
         -1 + (deleteRec (.node a2 b2 c2 d2 e2) (keyOf (getMinNode (.node a2 b2 c2 d2 e2)))).2 + 1)

/-- `AVLTree.in_order_traversal`. -/
def inOrder : Node → List String
  | .leaf => []
  | .node l k _ r _ => inOrder l ++ k :: inOrder r

/-- In-order traversal carrying the derived-word maps. -/
def inorderP : Node → List (String × DWMap)
  | .leaf => []
  | .node l k dw r _ => inorderP l ++ (k, dw) :: inorderP r

/-- Result messages of the mutating tree operations. -/
inductive RootMsg where
  | insertedOk (root : String)
  | alreadyExists (root : String)
  | deletedOk (root : String)
  | deleteFailed (root : String)
  | notFound (root : String)
  | newRootNot3
  | sameAsOld
  | updatedOk (o n : String)
  | updateFailed
deriving DecidableEq, Repr

/-- `AVLTree` state: tree root plus the `self.size` counter. -/
structure Tree where
  root : Node
  size : Int
deriving DecidableEq, Repr

/-- `AVLTree.__init__`. -/
def Tree.empty : Tree := { root := .leaf, size := 0 }

/-- `AVLTree.insert`: success is judged by whether `self.size` grew. -/
def Tree.insert (t : Tree) (k : String) : Tree × Bool × RootMsg :=
  if t.size < t.size + ((insertRec t.root k).2 : Int) then
    ({ root := (insertRec t.root k).1, size := t.size + ((insertRec t.root k).2 : Int) },
      true, .insertedOk k)
  else
    ({ root := (insertRec t.root k).1, size := t.size + ((insertRec t.root k).2 : Int) },
      false, .alreadyExists k)

/-- `AVLTree.search`. -/
def Tree.search (t : Tree) (k : String) : Bool := searchRec t.root k

/-- `AVLTree.delete`: absent keys are rejected up front; success is judged by
whether `self.size` shrank. -/
def Tree.delete (t : Tree) (k : String) : Tree × Bool × RootMsg :=
  if ¬ searchRec t.root k then (t, false, .notFound k)
  else if t.size + (deleteRec t.root k).2 < t.size then
    ({ root := (deleteRec t.root k).1, size := t.size + (deleteRec t.root k).2 },
      true, .deletedOk k)
  else
    ({ root := (deleteRec t.root k).1, size := t.size + (deleteRec t.root k).2 },
      false, .deleteFailed k)

/-- `AVLTree.update`: validation cascade, then delete + insert + restore the
backed-up derived words on the new node. -/
def Tree.update (t : Tree) (oldR newR : String) : Tree × Bool × RootMsg :=
  if newR.length ≠ 3 then (t, false, .newRootNot3)
  else if ¬ searchRec t.root oldR then (t, false, .notFound oldR)
  else if searchRec t.root newR ∧ oldR ≠ newR then (t, false, .alreadyExists newR)
  else if oldR = newR then (t, false, .sameAsOld)
  else if ((t.delete oldR).2.1 : Bool) then
    ({ root := setDW ((t.delete oldR).1.insert newR).1.root newR ((getDW t.root oldR).getD []),
       size := ((t.delete oldR).1.insert newR).1.size },
      true, .updatedOk oldR newR)
  else ((t.delete oldR).1, false, .updateFailed)

/-- The AVL node invariant of claim C3: at every node the stored height is
one more than the larger child stored height and the children's stored
heights differ by at most one. -/
def Avl : Node → Prop
  | .leaf => True
  | .node l _ _ r h =>
    Avl l ∧ Avl r ∧ h = 1 + max (getHeight l) (getHeight r) ∧
    getHeight l ≤ getHeight r + 1 ∧ getHeight r ≤ getHeight l + 1

instance Avl.inst : (t : Node) → Decidable (Avl t)
  | .leaf => isTrue trivial
  | .node l _ _ r h =>
    @instDecidableAnd _ _ (Avl.inst l)
      (@instDecidableAnd _ _ (Avl.inst r) inferInstance)

/-- The BST invariant: the in-order key sequence is strictly increasing
under the raw string comparison. -/
def BstP (t : Node) : Prop := (inOrder t).Pairwise strLt

/-- Wellformedness of reachable tree states. -/
def WF (t : Tree) : Prop := BstP t.root ∧ Avl t.root

/-- A single externally driven mutation. -/
inductive Op where
  | ins (k : String)
  | del (k : String)

/-- Apply one operation, keeping only the state (as the API layer does). -/
def applyOp (t : Tree) (op : Op) : Tree :=
  match op with
  | .ins k => (t.insert k).1
  | .del k => (t.delete k).1

/-- Run a sequence of insert/delete operations from the empty tree. -/
def runOps (ops : List Op) : Tree := ops.foldl applyOp Tree.empty

end Avl

namespace Avl

instance (t : Node) : Decidable (BstP t) :=
  inferInstanceAs (Decidable ((inOrder t).Pairwise strLt))

instance (t : Tree) : Decidable (WF t) :=
  inferInstanceAs (Decidable (BstP t.root ∧ Avl t.root))

theorem inorderP_rotateRight (t : Node) : inorderP (rotateRight t) = inorderP t := by
  cases t with
  | leaf => rfl
  | node l key dw r h =>
    cases l with
    | leaf => rfl
    | node a p pdw b hh => simp [rotateRight, inorderP, List.append_assoc]

theorem inorderP_rotateLeft (t : Node) : inorderP (rotateLeft t) = inorderP t := by
  cases t with
  | leaf => rfl
  | node l key dw r h =>
    cases r with
    | leaf => rfl
    | node b q qdw c hh => simp [rotateLeft, inorderP, List.append_assoc]

theorem inOrder_eq_map (t : Node) : inOrder t = (inorderP t).map Prod.fst := by
  induction t with
  | leaf => rfl
  | node l k dw r hl ihl ihr => simp [inOrder, inorderP, ihl, ihr]

theorem inorderP_insertRebalance (l : Node) (key : String) (dw : DWMap) (r : Node) (k : String) :
    inorderP (insertRebalance l key dw r k) = inorderP l ++ (key, dw) :: inorderP r := by
  rw [insertRebalance]
  split_ifs <;>
    simp [inorderP_rotateRight, inorderP_rotateLeft, inorderP]

theorem inorderP_deleteRebalance (l : Node) (key : String) (dw : DWMap) (r : Node) :
    inorderP (deleteRebalance l key dw r) = inorderP l ++ (key, dw) :: inorderP r := by
  rw [deleteRebalance]
  split_ifs <;>
    simp [inorderP_rotateRight, inorderP_rotateLeft, inorderP]

theorem insertRec_delta (t : Node) (k : String) :
    (insertRec t k).2 = if searchRec t k then 0 else 1 := by
  induction t with
  | leaf => simp [insertRec, searchRec]
  | node l key dw r h ihl ihr =>
    by_cases h1 : strLt k key
    · have hne : k ≠ key := strLt_ne h1
      simp [insertRec, searchRec, h1, hne, ihl]
    · by_cases h2 : strLt key k
      · have hne : k ≠ key := fun he => strLt_ne h2 he.symm
        simp [insertRec, searchRec, h1, h2, hne, ihr]
      · have he : k = key := eq_of_not_strLt h1 h2
        subst he
        simp [insertRec, searchRec, strLt_irrefl k]

theorem mem_inorderP_insertRec (t : Node) (k : String) (x : String × DWMap)
    (hx : x ∈ inorderP (insertRec t k).1) : x.1 = k ∨ x ∈ inorderP t := by
  induction t with
  | leaf =>
    simp [insertRec, inorderP] at hx
    left
    rw [hx]
  | node l key dw r h ihl ihr =>
    by_cases h1 : strLt k key
    · rw [insertRec] at hx
      rw [if_pos h1] at hx
      simp only [inorderP_insertRebalance, List.mem_append, List.mem_cons] at hx
      rcases hx with hx | hx | hx
      · rcases ihl hx with hh | hh
        · exact Or.inl hh
        · exact Or.inr (by simp [inorderP, hh])
      · exact Or.inr (by simp [inorderP, hx])
      · exact Or.inr (by simp [inorderP, hx])
    · by_cases h2 : strLt key k
      · rw [insertRec] at hx
        rw [if_neg h1, if_pos h2] at hx
        simp only [inorderP_insertRebalance, List.mem_append, List.mem_cons] at hx
        rcases hx with hx | hx | hx
        · exact Or.inr (by simp [inorderP, hx])
        · exact Or.inr (by simp [inorderP, hx])
        · rcases ihr hx with hh | hh
          · exact Or.inl hh
          · exact Or.inr (by simp [inorderP, hh])
      · rw [insertRec] at hx
        rw [if_neg h1, if_neg h2] at hx
        exact Or.inr hx

theorem mem_inorderP_insertRec_self (t : Node) (k : String) :
    ∃ dw, (k, dw) ∈ inorderP (insertRec t k).1 := by
  induction t with
  | leaf => exact ⟨[], by simp [insertRec, inorderP]⟩
  | node l key dw r h ihl ihr =>
    by_cases h1 : strLt k key
    · rcases ihl with ⟨dw2, hdw⟩
      refine ⟨dw2, ?_⟩
      rw [insertRec, if_pos h1]
      simp only [inorderP_insertRebalance, List.mem_append, List.mem_cons]
      exact Or.inl hdw
    · by_cases h2 : strLt key k
      · rcases ihr with ⟨dw2, hdw⟩
        refine ⟨dw2, ?_⟩
        rw [insertRec, if_neg h1, if_pos h2]
        simp only [inorderP_insertRebalance, List.mem_append, List.mem_cons]
        exact Or.inr (Or.inr hdw)
      · have he : k = key := eq_of_not_strLt h1 h2
        refine ⟨dw, ?_⟩
        rw [insertRec, if_neg h1, if_neg h2]
        simp [inorderP, he]

end Avl

namespace Avl

theorem inOrder_insertRebalance (l : Node) (key : String) (dw : DWMap) (r : Node) (k : String) :
    inOrder (insertRebalance l key dw r k) = inOrder l ++ key :: inOrder r := by
  rw [inOrder_eq_map, inorderP_insertRebalance]
  simp [inOrder_eq_map]

theorem inOrder_deleteRebalance (l : Node) (key : String) (dw : DWMap) (r : Node) :
    inOrder (deleteRebalance l key dw r) = inOrder l ++ key :: inOrder r := by
  rw [inOrder_eq_map, inorderP_deleteRebalance]
  simp [inOrder_eq_map]

theorem mem_inOrder_insertRec (t : Node) (k a : String)
    (ha : a ∈ inOrder (insertRec t k).1) : a = k ∨ a ∈ inOrder t := by
  rw [inOrder_eq_map] at ha
  rcases List.mem_map.mp ha with ⟨x, hx, rfl⟩
  rcases mem_inorderP_insertRec t k x hx with hh | hh
  · exact Or.inl hh
  · exact Or.inr (by rw [inOrder_eq_map]; exact List.mem_map_of_mem _ hh)

theorem mem_inOrder_insertRec_self (t : Node) (k : String) :
    k ∈ inOrder (insertRec t k).1 := by
  rcases mem_inorderP_insertRec_self t k with ⟨dw, hdw⟩
  rw [inOrder_eq_map]
  exact List.mem_map.mpr ⟨(k, dw), hdw, rfl⟩

theorem bst_insert (t : Node) (k : String) (hb : BstP t) : BstP (insertRec t k).1 := by
  induction t with
  | leaf => simp [BstP, insertRec, inOrder]
  | node l key dw r h ihl ihr =>
    rw [BstP, inOrder, List.pairwise_append, List.pairwise_cons] at hb
    obtain ⟨hpl, ⟨hkr, hpr⟩, hcross⟩ := hb
    by_cases h1 : strLt k key
    · rw [BstP, insertRec, if_pos h1]
      simp only
      rw [inOrder_insertRebalance, List.pairwise_append, List.pairwise_cons]
      refine ⟨ihl hpl, ⟨hkr, hpr⟩, ?_⟩
      intro a ha b hb2
      rcases mem_inOrder_insertRec l k a ha with rfl | ha'
      · rcases List.mem_cons.mp hb2 with rfl | hb3
        · exact h1
        · exact strLt_trans h1 (hkr b hb3)
      · exact hcross a ha' b hb2
    · by_cases h2 : strLt key k
      · rw [BstP, insertRec, if_neg h1, if_pos h2]
        simp only
        rw [inOrder_insertRebalance, List.pairwise_append, List.pairwise_cons]
        refine ⟨hpl, ⟨?_, ihr hpr⟩, ?_⟩
        · intro b hb2
          rcases mem_inOrder_insertRec r k b hb2 with rfl | hb3
          · exact h2
          · exact hkr b hb3
        · intro a ha b hb2
          rcases List.mem_cons.mp hb2 with rfl | hb3
          · exact hcross a ha _ (List.mem_cons_self _ _)
          · rcases mem_inOrder_insertRec r k b hb3 with rfl | hb4
            · exact strLt_trans (hcross a ha key (List.mem_cons_self key _)) h2
            · exact hcross a ha b (List.mem_cons_of_mem _ hb4)
      · rw [BstP, insertRec, if_neg h1, if_neg h2]
        rw [BstP, inOrder, List.pairwise_append, List.pairwise_cons] at *
        exact ⟨hpl, ⟨hkr, hpr⟩, hcross⟩

theorem searchRec_iff (t : Node) (k : String) (hb : BstP t) :
    searchRec t k = true ↔ k ∈ inOrder t := by
  induction t with
  | leaf => simp [searchRec, inOrder]
  | node l key dw r h ihl ihr =>
    rw [BstP, inOrder, List.pairwise_append, List.pairwise_cons] at hb
    obtain ⟨hpl, ⟨hkr, hpr⟩, hcross⟩ := hb
    by_cases hek : k = key
    · simp [searchRec, hek, inOrder]
    · by_cases h1 : strLt k key
      · rw [searchRec, if_neg hek, if_pos h1, ihl hpl, inOrder]
        constructor
        · intro hm
          exact List.mem_append.mpr (Or.inl hm)
        · intro hm
          rcases List.mem_append.mp hm with hm | hm
          · exact hm
          · rcases List.mem_cons.mp hm with rfl | hm2
            · exact absurd rfl hek
            · exact absurd h1 (strLt_asymm (hkr k hm2))
      · have h2 : strLt key k := by
          rcases strLt_trichotomy k key with hh | hh | hh
          · exact absurd hh h1
          · exact absurd hh hek
          · exact hh
        rw [searchRec, if_neg hek, if_neg h1, ihr hpr, inOrder]
        constructor
        · intro hm
          exact List.mem_append.mpr (Or.inr (List.mem_cons_of_mem _ hm))
        · intro hm
          rcases List.mem_append.mp hm with hm | hm
          · exact absurd (hcross k hm key (List.mem_cons_self key _)) (strLt_asymm h2)
          · rcases List.mem_cons.mp hm with rfl | hm2
            · exact absurd rfl hek
            · exact hm2

theorem searchRec_eq_isSome (t : Node) (k : String) :
    searchRec t k = (getDW t k).isSome := by
  induction t with
  | leaf => simp [searchRec, getDW]
  | node l key dw r h ihl ihr =>
    by_cases hek : k = key
    · simp [searchRec, getDW, hek]
    · by_cases h1 : strLt k key
      · simp [searchRec, getDW, hek, h1, ihl]
      · simp [searchRec, getDW, hek, h1, ihr]

theorem getDW_setDW (t : Node) (k : String) (m : DWMap) :
    getDW (setDW t k m) k = (getDW t k).map (fun _ => m) := by
  induction t with
  | leaf => simp [setDW, getDW]
  | node l key dw r h ihl ihr =>
    by_cases hek : k = key
    · simp [setDW, getDW, hek]
    · by_cases h1 : strLt k key
      · simp [setDW, getDW, hek, h1, ihl]
      · simp [setDW, getDW, hek, h1, ihr]

end Avl

namespace Avl

/-- Remove the first pair whose key is `k` (the effect of one found-node
deletion on the in-order pair sequence). -/
def eraseKey (l : List (String × DWMap)) (k : String) : List (String × DWMap) :=
  l.eraseP (fun p => p.1 == k)

theorem bstP_node {l : Node} {key : String} {dw : DWMap} {r : Node} {h : Nat}
    (hb : BstP (.node l key dw r h)) :
    BstP l ∧ BstP r ∧ (∀ a ∈ inOrder l, strLt a key) ∧ (∀ b ∈ inOrder r, strLt key b) := by
  rw [BstP, inOrder, List.pairwise_append, List.pairwise_cons] at hb
  obtain ⟨hpl, ⟨hkr, hpr⟩, hcross⟩ := hb
  exact ⟨hpl, hpr, fun a ha => hcross a ha key (List.mem_cons_self key _), hkr⟩

theorem eraseP_append_of_right_clean {α : Type} {p : α → Bool} (l1 l2 : List α)
    (h2 : ∀ b ∈ l2, ¬ p b = true) :
    (l1 ++ l2).eraseP p = l1.eraseP p ++ l2 := by
  by_cases h1 : ∃ a ∈ l1, p a = true
  · rcases h1 with ⟨a, ha, hpa⟩
    exact List.eraseP_append_left hpa l2 ha
  · push_neg at h1
    have e1 : l1.eraseP p = l1 := List.eraseP_of_forall_not (by simpa using h1)
    have e2 : l2.eraseP p = l2 := List.eraseP_of_forall_not h2
    rw [List.eraseP_append_right _ (by simpa using h1), e1, e2]

theorem inorderP_getMinNode (r : Node) (hne : r ≠ .leaf) :
    ∃ rest, inorderP r = (keyOf (getMinNode r), dwOf (getMinNode r)) :: rest := by
  induction r with
  | leaf => exact absurd rfl hne
  | node l key dw rr h ihl ihr =>
    cases l with
    | leaf => exact ⟨inorderP rr, by simp [getMinNode, inorderP, keyOf, dwOf]⟩
    | node a p pdw b hh =>
      rcases ihl (by simp) with ⟨rest, hrest⟩
      refine ⟨rest ++ (key, dw) :: inorderP rr, ?_⟩
      rw [show getMinNode (Node.node (Node.node a p pdw b hh) key dw rr h) =
        getMinNode (Node.node a p pdw b hh) from rfl]
      rw [inorderP, hrest]
      simp

theorem keyOf_getMinNode_mem (r : Node) (hne : r ≠ .leaf) :
    keyOf (getMinNode r) ∈ inOrder r := by
  rcases inorderP_getMinNode r hne with ⟨rest, hrest⟩
  rw [inOrder_eq_map, hrest]
  exact List.mem_cons_self _ _

theorem deleteRec_node (l : Node) (key : String) (dw : DWMap) (r : Node) (h : Nat) (k : String) :
    deleteRec (.node l key dw r h) k =
      if strLt k key then
        (deleteRebalance (deleteRec l k).1 key dw r, (deleteRec l k).2)
      else if strLt key k then
        (deleteRebalance l key dw (deleteRec r k).1, (deleteRec r k).2)
      else
        match l, r with
        | .leaf, _ => (r, -1)
        | .node a b c d e, .leaf => (.node a b c d e, -1)
        | .node a b c d e, .node a2 b2 c2 d2 e2 =>
          (deleteRebalance (.node a b c d e)
            (keyOf (getMinNode (.node a2 b2 c2 d2 e2)))
            (dwOf (getMinNode (.node a2 b2 c2 d2 e2)))
            (deleteRec (.node a2 b2 c2 d2 e2) (keyOf (getMinNode (.node a2 b2 c2 d2 e2)))).1,
           -1 + (deleteRec (.node a2 b2 c2 d2 e2) (keyOf (getMinNode (.node a2 b2 c2 d2 e2)))).2 + 1) := by
  rw [deleteRec.eq_def]

theorem deleteRec_lt {k key : String} (h1 : strLt k key) (l : Node) (dw : DWMap) (r : Node)
    (h : Nat) :
    deleteRec (.node l key dw r h) k =
      (deleteRebalance (deleteRec l k).1 key dw r, (deleteRec l k).2) := by
  rw [deleteRec_node, if_pos h1]

theorem deleteRec_gt {k key : String} (h1 : ¬ strLt k key) (h2 : strLt key k) (l : Node)
    (dw : DWMap) (r : Node) (h : Nat) :
    deleteRec (.node l key dw r h) k =
      (deleteRebalance l key dw (deleteRec r k).1, (deleteRec r k).2) := by
  rw [deleteRec_node, if_neg h1, if_pos h2]

theorem deleteRec_found_noleft {k key : String} (h1 : ¬ strLt k key) (h2 : ¬ strLt key k)
    (dw : DWMap) (r : Node) (h : Nat) :
    deleteRec (.node .leaf key dw r h) k = (r, -1) := by
  rw [deleteRec_node, if_neg h1, if_neg h2]

theorem deleteRec_found_noright {k key : String} (h1 : ¬ strLt k key) (h2 : ¬ strLt key k)
    (a : Node) (b : String) (c : DWMap) (d : Node) (e : Nat) (dw : DWMap) (h : Nat) :
    deleteRec (.node (.node a b c d e) key dw .leaf h) k = (.node a b c d e, -1) := by
  rw [deleteRec_node, if_neg h1, if_neg h2]

theorem deleteRec_found_two {k key : String} (h1 : ¬ strLt k key) (h2 : ¬ strLt key k)
    (a : Node) (b : String) (c : DWMap) (d : Node) (e : Nat)
    (a2 : Node) (b2 : String) (c2 : DWMap) (d2 : Node) (e2 : Nat) (dw : DWMap) (h : Nat) :
    deleteRec (.node (.node a b c d e) key dw (.node a2 b2 c2 d2 e2) h) k =
      (deleteRebalance (.node a b c d e)
        (keyOf (getMinNode (.node a2 b2 c2 d2 e2)))
        (dwOf (getMinNode (.node a2 b2 c2 d2 e2)))
        (deleteRec (.node a2 b2 c2 d2 e2) (keyOf (getMinNode (.node a2 b2 c2 d2 e2)))).1,
       -1 + (deleteRec (.node a2 b2 c2 d2 e2) (keyOf (getMinNode (.node a2 b2 c2 d2 e2)))).2 + 1) := by
  rw [deleteRec_node, if_neg h1, if_neg h2]

theorem inorderP_deleteRec (t : Node) :
    ∀ (k : String), BstP t → inorderP (deleteRec t k).1 = eraseKey (inorderP t) k := by
  induction t with
  | leaf => intro k hb; simp [deleteRec, inorderP, eraseKey]
  | node l key dw r h ihl ihr =>
    intro k hb
    obtain ⟨hpl, hpr, hlk, hkr⟩ := bstP_node hb
    have hl_mem : ∀ pl ∈ inorderP l, strLt pl.1 key := by
      intro pl hpl2
      exact hlk pl.1 (by rw [inOrder_eq_map]; exact List.mem_map_of_mem _ hpl2)
    have hr_mem : ∀ pr ∈ inorderP r, strLt key pr.1 := by
      intro pr hpr2
      exact hkr pr.1 (by rw [inOrder_eq_map]; exact List.mem_map_of_mem _ hpr2)
    by_cases h1 : strLt k key
    · have hkey_ne : ¬ (((key, dw) : String × DWMap).1 == k) = true := by
        simp only [beq_iff_eq]
        exact fun he => strLt_ne h1 he.symm
      have hr_ne : ∀ pr ∈ inorderP r, ¬ (pr.1 == k) = true := by
        intro pr hpr2
        simp only [beq_iff_eq]
        intro he
        have hkp := hr_mem pr hpr2
        rw [he] at hkp
        exact strLt_asymm h1 hkp
      rw [deleteRec_lt h1]
      rw [show inorderP (.node l key dw r h) = inorderP l ++ (key, dw) :: inorderP r from rfl]
      rw [inorderP_deleteRebalance, ihl k hpl, eraseKey, eraseKey]
      rw [eraseP_append_of_right_clean]
      intro b hb2
      rcases List.mem_cons.mp hb2 with rfl | hb3
      · exact hkey_ne
      · exact hr_ne b hb3
    · by_cases h2 : strLt key k
      · have hl_ne : ∀ pl ∈ inorderP l, ¬ (pl.1 == k) = true := by
          intro pl hpl2
          simp only [beq_iff_eq]
          exact fun he => strLt_ne (strLt_trans (hl_mem pl hpl2) h2) he
        rw [deleteRec_gt h1 h2]
        rw [show inorderP (.node l key dw r h) = inorderP l ++ (key, dw) :: inorderP r from rfl]
        rw [inorderP_deleteRebalance, ihr k hpr, eraseKey, eraseKey]
        rw [List.eraseP_append_right _ hl_ne]
        rw [List.eraseP_cons_of_neg (by simp only [beq_iff_eq]; exact fun he => strLt_ne h2 he)]
      · have he : k = key := eq_of_not_strLt h1 h2
        subst he
        have hl_ne : ∀ pl ∈ inorderP l, ¬ (pl.1 == k) = true := by
          intro pl hpl2
          simp only [beq_iff_eq]
          exact fun he2 => strLt_ne (hl_mem pl hpl2) he2
        cases l with
        | leaf =>
          rw [deleteRec_found_noleft h1 h2]
          rw [show inorderP (.node .leaf k dw r h) = (k, dw) :: inorderP r from by
            simp [inorderP]]
          rw [eraseKey, List.eraseP_cons_of_pos (by simp)]
        | node a b c d e =>
          cases r with
          | leaf =>
            rw [deleteRec_found_noright h1 h2]
            rw [show inorderP (.node (.node a b c d e) k dw .leaf h) =
              inorderP (.node a b c d e) ++ [(k, dw)] from by simp [inorderP]]
            rw [eraseKey, List.eraseP_append_right _ hl_ne]
            rw [List.eraseP_cons_of_pos (by simp)]
            simp
          | node a2 b2 c2 d2 e2 =>
            have hne2 : (Node.node a2 b2 c2 d2 e2) ≠ Node.leaf := by simp
            rcases inorderP_getMinNode _ hne2 with ⟨rest, hrest⟩
            rw [deleteRec_found_two h1 h2]
            rw [inorderP_deleteRebalance]
            rw [ihr _ hpr, eraseKey, hrest, List.eraseP_cons_of_pos (by simp)]
            rw [show inorderP (.node (.node a b c d e) k dw (.node a2 b2 c2 d2 e2) h) =
              inorderP (.node a b c d e) ++ (k, dw) :: inorderP (.node a2 b2 c2 d2 e2) from rfl]
            rw [eraseKey, List.eraseP_append_right _ hl_ne]
            rw [List.eraseP_cons_of_pos (by simp), hrest]

end Avl

namespace Avl

theorem inOrder_deleteRec (t : Node) (k : String) (hb : BstP t) :
    inOrder (deleteRec t k).1 = (eraseKey (inorderP t) k).map Prod.fst := by
  rw [inOrder_eq_map, inorderP_deleteRec t k hb]

theorem bst_delete (t : Node) (k : String) (hb : BstP t) : BstP (deleteRec t k).1 := by
  rw [BstP, inOrder_deleteRec t k hb]
  have hsub : List.Sublist ((eraseKey (inorderP t) k).map Prod.fst) ((inorderP t).map Prod.fst) :=
    (List.eraseP_sublist _).map _
  rw [BstP, inOrder_eq_map] at hb
  exact hb.sublist hsub

theorem deleteRec_delta (t : Node) :
    ∀ (k : String), BstP t → (deleteRec t k).2 = if searchRec t k then -1 else 0 := by
  induction t with
  | leaf => intro k hb; simp [deleteRec, searchRec]
  | node l key dw r h ihl ihr =>
    intro k hb
    obtain ⟨hpl, hpr, hlk, hkr⟩ := bstP_node hb
    by_cases hek : k = key
    · subst hek
      have h1 : ¬ strLt k k := strLt_irrefl k
      cases l with
      | leaf =>
        rw [deleteRec_found_noleft h1 h1]
        simp [searchRec]
      | node a b c d e =>
        cases r with
        | leaf =>
          rw [deleteRec_found_noright h1 h1]
          simp [searchRec]
        | node a2 b2 c2 d2 e2 =>
          rw [deleteRec_found_two h1 h1]
          have hmk : searchRec (.node a2 b2 c2 d2 e2) (keyOf (getMinNode (.node a2 b2 c2 d2 e2))) = true := by
            rw [searchRec_iff _ _ hpr]
            exact keyOf_getMinNode_mem _ (by simp)
          rw [show ((deleteRec (.node a2 b2 c2 d2 e2) (keyOf (getMinNode (.node a2 b2 c2 d2 e2)))).2 : Int) =
            if searchRec (.node a2 b2 c2 d2 e2) (keyOf (getMinNode (.node a2 b2 c2 d2 e2))) then -1 else 0 from
            ihr _ hpr]
          rw [hmk]
          simp [searchRec]
    · by_cases h1 : strLt k key
      · rw [deleteRec_lt h1]
        simp only [searchRec, hek, if_false, if_pos h1]
        exact ihl k hpl
      · have h2 : strLt key k := by
          rcases strLt_trichotomy k key with hh | hh | hh
          · exact absurd hh h1
          · exact absurd hh hek
          · exact hh
        rw [deleteRec_gt h1 h2]
        simp only [searchRec, hek, if_false, if_neg h1]
        exact ihr k hpr

end Avl

namespace Avl

theorem getHeight_node (l : Node) (key : String) (dw : DWMap) (r : Node) (h : Nat) :
    getHeight (.node l key dw r h) = h := rfl

theorem avl_node {l : Node} {key : String} {dw : DWMap} {r : Node} {h : Nat}
    (ha : Avl (.node l key dw r h)) :
    Avl l ∧ Avl r ∧ h = 1 + max (getHeight l) (getHeight r) ∧
    getHeight l ≤ getHeight r + 1 ∧ getHeight r ≤ getHeight l + 1 := ha

theorem avl_node_mk {l : Node} {key : String} {dw : DWMap} {r : Node} {h : Nat}
    (hal : Avl l) (har : Avl r) (hh : h = 1 + max (getHeight l) (getHeight r))
    (h1 : getHeight l ≤ getHeight r + 1) (h2 : getHeight r ≤ getHeight l + 1) :
    Avl (.node l key dw r h) := ⟨hal, har, hh, h1, h2⟩

/-- Single right rotation at a +2-unbalanced node whose left child is not
right-heavy: restores the AVL shape; the result height depends on whether the
left child was perfectly balanced. -/
theorem rotateRight_spec (a : Node) (p : String) (pdw : DWMap) (b : Node) (lh : Nat)
    (key : String) (dw : DWMap) (r : Node) (h0 : Nat)
    (hal : Avl (.node a p pdw b lh)) (har : Avl r)
    (hgap : lh = getHeight r + 2)
    (hbal : getHeight b ≤ getHeight a) :
    Avl (rotateRight (.node (.node a p pdw b lh) key dw r h0)) ∧
    (getHeight b < getHeight a →
      getHeight (rotateRight (.node (.node a p pdw b lh) key dw r h0)) = getHeight r + 2) ∧
    (getHeight a = getHeight b →
      getHeight (rotateRight (.node (.node a p pdw b lh) key dw r h0)) = getHeight r + 3) := by
  obtain ⟨haa, hab, hstored, hd1, hd2⟩ := avl_node hal
  rw [show rotateRight (.node (.node a p pdw b lh) key dw r h0) =
    .node a p pdw (.node b key dw r (1 + max (getHeight b) (getHeight r)))
      (1 + max (getHeight a) (getHeight (Node.node b key dw r (1 + max (getHeight b) (getHeight r)))))
    from rfl]
  simp only [getHeight_node]
  refine ⟨⟨haa, ⟨hab, har, rfl, ?_, ?_⟩, rfl, ?_, ?_⟩, ?_, ?_⟩ <;> (try simp only [getHeight_node]) <;> omega

/-- Single left rotation, mirror of `rotateRight_spec`. -/
theorem rotateLeft_spec (l : Node) (key : String) (dw : DWMap)
    (b : Node) (q : String) (qdw : DWMap) (c : Node) (rh : Nat) (h0 : Nat)
    (hal : Avl l) (har : Avl (.node b q qdw c rh))
    (hgap : rh = getHeight l + 2)
    (hbal : getHeight b ≤ getHeight c) :
    Avl (rotateLeft (.node l key dw (.node b q qdw c rh) h0)) ∧
    (getHeight b < getHeight c →
      getHeight (rotateLeft (.node l key dw (.node b q qdw c rh) h0)) = getHeight l + 2) ∧
    (getHeight c = getHeight b →
      getHeight (rotateLeft (.node l key dw (.node b q qdw c rh) h0)) = getHeight l + 3) := by
  obtain ⟨hab, hac, hstored, hd1, hd2⟩ := avl_node har
  rw [show rotateLeft (.node l key dw (.node b q qdw c rh) h0) =
    .node (.node l key dw b (1 + max (getHeight l) (getHeight b))) q qdw c
      (1 + max (getHeight (Node.node l key dw b (1 + max (getHeight l) (getHeight b)))) (getHeight c))
    from rfl]
  simp only [getHeight_node]
  refine ⟨⟨⟨hal, hab, rfl, ?_, ?_⟩, hac, rfl, ?_, ?_⟩, ?_, ?_⟩ <;> (try simp only [getHeight_node]) <;> omega

/-- Double left-right rotation at a +2-unbalanced node whose left child is
right-heavy: restores the AVL shape and always shrinks by one. -/
theorem rotateLR_spec (a : Node) (p : String) (pdw : DWMap)
    (b1 : Node) (q : String) (qdw : DWMap) (b2 : Node) (bh : Nat) (lh : Nat)
    (key : String) (dw : DWMap) (r : Node) (h0 : Nat)
    (hal : Avl (.node a p pdw (.node b1 q qdw b2 bh) lh)) (har : Avl r)
    (hgap : lh = getHeight r + 2)
    (hbal : getHeight a < bh) :
    Avl (rotateRight (.node (rotateLeft (.node a p pdw (.node b1 q qdw b2 bh) lh)) key dw r h0)) ∧
    getHeight (rotateRight (.node (rotateLeft (.node a p pdw (.node b1 q qdw b2 bh) lh)) key dw r h0)) =
      getHeight r + 2 := by
  obtain ⟨haa, hab, hstored, hd1, hd2⟩ := avl_node hal
  obtain ⟨hab1, hab2, hbstored, hbd1, hbd2⟩ := avl_node hab
  simp only [getHeight_node] at hstored hd1 hd2 hbal
  rw [show rotateLeft (.node a p pdw (.node b1 q qdw b2 bh) lh) =
    .node (.node a p pdw b1 (1 + max (getHeight a) (getHeight b1))) q qdw b2
      (1 + max (getHeight (Node.node a p pdw b1 (1 + max (getHeight a) (getHeight b1)))) (getHeight b2))
    from rfl]
  rw [show rotateRight (.node (.node (.node a p pdw b1 (1 + max (getHeight a) (getHeight b1))) q qdw b2
      (1 + max (getHeight (Node.node a p pdw b1 (1 + max (getHeight a) (getHeight b1)))) (getHeight b2))) key dw r h0) =
    .node (.node a p pdw b1 (1 + max (getHeight a) (getHeight b1))) q qdw
      (.node b2 key dw r (1 + max (getHeight b2) (getHeight r)))
      (1 + max (getHeight (Node.node a p pdw b1 (1 + max (getHeight a) (getHeight b1))))
        (getHeight (Node.node b2 key dw r (1 + max (getHeight b2) (getHeight r)))))
    from rfl]
  simp only [getHeight_node]
  refine ⟨⟨⟨haa, hab1, rfl, ?_, ?_⟩, ⟨hab2, har, rfl, ?_, ?_⟩, rfl, ?_, ?_⟩, ?_⟩ <;> (try simp only [getHeight_node]) <;> omega

/-- Double right-left rotation, mirror of `rotateLR_spec`. -/
theorem rotateRL_spec (l : Node) (key : String) (dw : DWMap)
    (b1 : Node) (q : String) (qdw : DWMap) (b2 : Node) (bh : Nat)
    (p : String) (pdw : DWMap) (c : Node) (rh : Nat) (h0 : Nat)
    (hal : Avl l) (har : Avl (.node (.node b1 q qdw b2 bh) p pdw c rh))
    (hgap : rh = getHeight l + 2)
    (hbal : getHeight c < bh) :
    Avl (rotateLeft (.node l key dw (rotateRight (.node (.node b1 q qdw b2 bh) p pdw c rh)) h0)) ∧
    getHeight (rotateLeft (.node l key dw (rotateRight (.node (.node b1 q qdw b2 bh) p pdw c rh)) h0)) =
      getHeight l + 2 := by
  obtain ⟨hab, hac, hstored, hd1, hd2⟩ := avl_node har
  obtain ⟨hab1, hab2, hbstored, hbd1, hbd2⟩ := avl_node hab
  simp only [getHeight_node] at hstored hd1 hd2 hbal
  rw [show rotateRight (.node (.node b1 q qdw b2 bh) p pdw c rh) =
    .node b1 q qdw (.node b2 p pdw c (1 + max (getHeight b2) (getHeight c)))
      (1 + max (getHeight b1) (getHeight (Node.node b2 p pdw c (1 + max (getHeight b2) (getHeight c)))))
    from rfl]
  rw [show rotateLeft (.node l key dw (.node b1 q qdw (.node b2 p pdw c (1 + max (getHeight b2) (getHeight c)))
      (1 + max (getHeight b1) (getHeight (Node.node b2 p pdw c (1 + max (getHeight b2) (getHeight c)))))) h0) =
    .node (.node l key dw b1 (1 + max (getHeight l) (getHeight b1))) q qdw
      (.node b2 p pdw c (1 + max (getHeight b2) (getHeight c)))
      (1 + max (getHeight (Node.node l key dw b1 (1 + max (getHeight l) (getHeight b1))))
        (getHeight (Node.node b2 p pdw c (1 + max (getHeight b2) (getHeight c)))))
    from rfl]
  simp only [getHeight_node]
  refine ⟨⟨⟨hal, hab1, rfl, ?_, ?_⟩, ⟨hab2, hac, rfl, ?_, ?_⟩, rfl, ?_, ?_⟩, ?_⟩ <;> (try simp only [getHeight_node]) <;> omega

end Avl

namespace Avl

theorem balanceFactor_node (l : Node) (key : String) (dw : DWMap) (r : Node) (h : Nat) :
    balanceFactor (.node l key dw r h) = (getHeight l : Int) - getHeight r := rfl

theorem keyOf_node (l : Node) (key : String) (dw : DWMap) (r : Node) (h : Nat) :
    keyOf (.node l key dw r h) = key := rfl

/-- Shape information about a subtree that just grew by an insertion: the
side of the root the inserted key lies on is the strictly higher one, and a
grown singleton has no children. -/
def GrowShape (t : Node) (k : String) : Prop :=
  ∀ l key dw r h, t = .node l key dw r h →
    (strLt k key → getHeight r < getHeight l) ∧
    (strLt key k → getHeight l < getHeight r) ∧
    (k = key → l = .leaf ∧ r = .leaf)

theorem insertRebalance_no_rot (l : Node) (key : String) (dw : DWMap) (r : Node) (k : String)
    (hle : getHeight l ≤ getHeight r + 1) (hge : getHeight r ≤ getHeight l + 1) :
    insertRebalance l key dw r k = .node l key dw r (1 + max (getHeight l) (getHeight r)) := by
  simp only [insertRebalance, balanceFactor_node]
  rw [if_neg (by rintro ⟨hh, -⟩; omega), if_neg (by rintro ⟨hh, -⟩; omega),
    if_neg (by rintro ⟨hh, -⟩; omega), if_neg (by rintro ⟨hh, -⟩; omega)]

theorem insert_avl (t : Node) : ∀ k, Avl t →
    Avl (insertRec t k).1 ∧
    (getHeight (insertRec t k).1 = getHeight t ∨
     (getHeight (insertRec t k).1 = getHeight t + 1 ∧ GrowShape (insertRec t k).1 k)) := by
  induction t with
  | leaf =>
    intro k _
    refine ⟨⟨trivial, trivial, by simp [getHeight], by simp [getHeight], by simp [getHeight]⟩, ?_⟩
    right
    refine ⟨by simp [insertRec, getHeight, getHeight_node], ?_⟩
    intro l2 key2 dw2 r2 h2 heq
    simp only [insertRec] at heq
    injection heq with e1 e2 e3 e4 e5
    subst e1; subst e2; subst e4
    refine ⟨fun hlt => absurd hlt (strLt_irrefl k), fun hlt => absurd hlt (strLt_irrefl k),
      fun _ => ⟨rfl, rfl⟩⟩
  | node l key dw r h ihl ihr =>
    intro k ha
    obtain ⟨hal, har, hstored, hb1, hb2⟩ := avl_node ha
    by_cases h1 : strLt k key
    · rw [insertRec, if_pos h1]
      obtain ⟨hal2, hcase⟩ := ihl k hal
      rcases hcase with hsame | ⟨hgrow, hshape⟩
      · -- left child kept its height: no rotation, no growth
        rw [insertRebalance_no_rot _ _ _ _ _ (by omega) (by omega)]
        refine ⟨⟨hal2, har, rfl, by omega, by omega⟩, Or.inl ?_⟩
        simp only [getHeight_node]
        omega
      · by_cases hbig : getHeight r + 2 ≤ getHeight (insertRec l k).1
        · -- +2 imbalance: some rotation fires
          have hl2r : getHeight (insertRec l k).1 = getHeight r + 2 := by omega
          rcases hl2 : (insertRec l k).1 with _ | ⟨la, lp, lpdw, lb, llh⟩
          · rw [hl2] at hl2r
            simp [getHeight] at hl2r
          · rw [hl2] at hl2r hal2 hshape hgrow hbig
            obtain ⟨hs1, hs2, hs3⟩ := hshape la lp lpdw lb llh rfl
            simp only [getHeight_node] at hl2r hgrow hbig
            rcases strLt_trichotomy k lp with hklp | hkeq | hlpk
            · -- left-left: single right rotation
              have hlt : getHeight lb < getHeight la := hs1 hklp
              simp only [insertRebalance, balanceFactor_node, keyOf_node, getHeight_node]
              rw [if_pos ⟨by omega, hklp⟩]
              obtain ⟨havl, hcase1, _⟩ :=
                rotateRight_spec la lp lpdw lb llh key dw r _ hal2 har (by omega) (le_of_lt hlt)
              refine ⟨havl, Or.inl ?_⟩
              rw [hcase1 hlt]
              omega
            · -- inserted key became the left child root: impossible at height ≥ 2
              obtain ⟨hla, hlb⟩ := hs3 hkeq
              subst hla; subst hlb
              obtain ⟨-, -, hll, -, -⟩ := avl_node hal2
              simp [getHeight] at hll
              omega
            · -- left-right: double rotation
              have hlt : getHeight la < getHeight lb := hs2 hlpk
              cases lb with
              | leaf => simp [getHeight] at hlt
              | node b1 bq bqdw b2 bbh =>
                simp only [insertRebalance, balanceFactor_node, keyOf_node, getHeight_node]
                rw [if_neg (by rintro ⟨-, habs⟩; exact strLt_asymm hlpk habs),
                  if_neg (by rintro ⟨habs, -⟩; omega),
                  if_pos ⟨by omega, hlpk⟩]
                obtain ⟨havl, hh2⟩ :=
                  rotateLR_spec la lp lpdw b1 bq bqdw b2 bbh llh key dw r _ hal2 har (by omega)
                    (by simpa [getHeight_node] using hlt)
                refine ⟨havl, Or.inl ?_⟩
                rw [hh2]
                omega
        · -- no rotation; the node may or may not grow
          rw [insertRebalance_no_rot _ _ _ _ _ (by omega) (by omega)]
          refine ⟨⟨hal2, har, rfl, by omega, by omega⟩, ?_⟩
          by_cases hc : getHeight (insertRec l k).1 ≤ getHeight r
          · refine Or.inl ?_
            simp only [getHeight_node]
            omega
          · refine Or.inr ⟨by simp only [getHeight_node]; omega, ?_⟩
            intro l2 key2 dw2 r2 h2 heq
            injection heq with e1 e2 e3 e4 e5
            subst e1; subst e2; subst e4
            refine ⟨fun _ => by omega, fun habs => absurd habs (strLt_asymm h1),
              fun habs => absurd habs (strLt_ne h1)⟩
    · by_cases h2 : strLt key k
      · rw [insertRec, if_neg h1, if_pos h2]
        obtain ⟨har2, hcase⟩ := ihr k har
        rcases hcase with hsame | ⟨hgrow, hshape⟩
        · rw [insertRebalance_no_rot _ _ _ _ _ (by omega) (by omega)]
          refine ⟨⟨hal, har2, rfl, by omega, by omega⟩, Or.inl ?_⟩
          simp only [getHeight_node]
          omega
        · by_cases hbig : getHeight l + 2 ≤ getHeight (insertRec r k).1
          · have hr2l : getHeight (insertRec r k).1 = getHeight l + 2 := by omega
            rcases hr2 : (insertRec r k).1 with _ | ⟨ra, rp, rpdw, rb, rrh⟩
            · rw [hr2] at hr2l
              simp [getHeight] at hr2l
            · rw [hr2] at hr2l har2 hshape hgrow hbig
              obtain ⟨hs1, hs2, hs3⟩ := hshape ra rp rpdw rb rrh rfl
              simp only [getHeight_node] at hr2l hgrow hbig
              rcases strLt_trichotomy k rp with hkrp | hkeq | hrpk
              · -- right-left: double rotation
                have hlt : getHeight rb < getHeight ra := hs1 hkrp
                cases ra with
                | leaf => simp [getHeight] at hlt
                | node b1 bq bqdw b2 bbh =>
                  simp only [insertRebalance, balanceFactor_node, keyOf_node, getHeight_node]
                  rw [if_neg (by rintro ⟨habs, -⟩; omega),
                    if_neg (by rintro ⟨-, habs⟩; exact strLt_asymm hkrp habs),
                    if_neg (by rintro ⟨habs, -⟩; omega),
                    if_pos ⟨by omega, hkrp⟩]
                  obtain ⟨havl, hh2⟩ :=
                    rotateRL_spec l key dw b1 bq bqdw b2 bbh rp rpdw rb rrh _ hal har2 (by omega)
                      (by simpa [getHeight_node] using hlt)
                  refine ⟨havl, Or.inl ?_⟩
                  rw [hh2]
                  omega
              · obtain ⟨hra, hrb⟩ := hs3 hkeq
                subst hra; subst hrb
                obtain ⟨-, -, hll, -, -⟩ := avl_node har2
                simp [getHeight] at hll
                omega
              · -- right-right: single left rotation
                have hlt : getHeight ra < getHeight rb := hs2 hrpk
                simp only [insertRebalance, balanceFactor_node, keyOf_node, getHeight_node]
                rw [if_neg (by rintro ⟨habs, -⟩; omega),
                  if_pos ⟨by omega, hrpk⟩]
                obtain ⟨havl, hcase1, _⟩ :=
                  rotateLeft_spec l key dw ra rp rpdw rb rrh _ hal har2 (by omega) (le_of_lt hlt)
                refine ⟨havl, Or.inl ?_⟩
                rw [hcase1 hlt]
                omega
          · rw [insertRebalance_no_rot _ _ _ _ _ (by omega) (by omega)]
            refine ⟨⟨hal, har2, rfl, by omega, by omega⟩, ?_⟩
            by_cases hc : getHeight (insertRec r k).1 ≤ getHeight l
            · refine Or.inl ?_
              simp only [getHeight_node]
              omega
            · refine Or.inr ⟨by simp only [getHeight_node]; omega, ?_⟩
              intro l2 key2 dw2 r2 hh2 heq
              injection heq with e1 e2 e3 e4 e5
              subst e1; subst e2; subst e4
              refine ⟨fun habs => absurd habs (strLt_asymm h2), fun _ => by omega,
                fun habs => absurd habs.symm (strLt_ne h2)⟩
      · rw [insertRec, if_neg h1, if_neg h2]
        exact ⟨ha, Or.inl rfl⟩


theorem getHeight_leaf : getHeight .leaf = 0 := rfl

theorem deleteRebalance_spec (l : Node) (key : String) (dw : DWMap) (r : Node)
    (hal : Avl l) (har : Avl r)
    (hd1 : getHeight l ≤ getHeight r + 2) (hd2 : getHeight r ≤ getHeight l + 2) :
    Avl (deleteRebalance l key dw r) ∧
    max (getHeight l) (getHeight r) ≤ getHeight (deleteRebalance l key dw r) ∧
    getHeight (deleteRebalance l key dw r) ≤ 1 + max (getHeight l) (getHeight r) ∧
    (getHeight l ≤ getHeight r + 1 → getHeight r ≤ getHeight l + 1 →
      getHeight (deleteRebalance l key dw r) = 1 + max (getHeight l) (getHeight r)) := by
  simp only [deleteRebalance, balanceFactor_node]
  by_cases hgt : ((getHeight l : Int) - getHeight r > 1)
  · have hl2 : getHeight l = getHeight r + 2 := by omega
    cases l with
    | leaf =>
      exfalso
      simp [getHeight] at hl2
    | node la lp lpdw lb llh =>
      rw [if_pos hgt]
      simp only [getHeight_node] at hl2 hd1 hd2
      obtain ⟨hala, halb, hlstored, hld1, hld2⟩ := avl_node hal
      by_cases hbf : balanceFactor (.node la lp lpdw lb llh) ≥ 0
      · rw [if_pos hbf]
        rw [balanceFactor_node] at hbf
        obtain ⟨havl, hcase1, hcase2⟩ :=
          rotateRight_spec la lp lpdw lb llh key dw r _ hal har (by omega) (by omega)
        refine ⟨havl, ?_, ?_, ?_⟩
        · rcases Nat.lt_or_ge (getHeight lb) (getHeight la) with hc | hc
          · rw [hcase1 hc]; simp only [getHeight_node]; omega
          · rw [hcase2 (by omega)]; simp only [getHeight_node]; omega
        · rcases Nat.lt_or_ge (getHeight lb) (getHeight la) with hc | hc
          · rw [hcase1 hc]; simp only [getHeight_node]; omega
          · rw [hcase2 (by omega)]; simp only [getHeight_node]; omega
        · intro habs _
          simp only [getHeight_node] at habs
          omega
      · rw [if_neg hbf]
        rw [balanceFactor_node] at hbf
        cases lb with
        | leaf =>
          exfalso
          simp [getHeight] at hbf
        | node b1 bq bqdw b2 bbh =>
          obtain ⟨havl, hh2⟩ :=
            rotateLR_spec la lp lpdw b1 bq bqdw b2 bbh llh key dw r _ hal har (by omega)
              (by simp only [getHeight_node] at hbf ⊢; omega)
          refine ⟨havl, ?_, ?_, ?_⟩
          · rw [hh2]; simp only [getHeight_node]; omega
          · rw [hh2]; simp only [getHeight_node]; omega
          · intro habs _
            simp only [getHeight_node] at habs
            omega
  · by_cases hlt2 : ((getHeight l : Int) - getHeight r < -1)
    · have hr2 : getHeight r = getHeight l + 2 := by omega
      cases r with
      | leaf =>
        exfalso
        simp [getHeight] at hr2
      | node rb rq rqdw rc rrh =>
        rw [if_neg hgt, if_pos hlt2]
        simp only [getHeight_node] at hr2 hd1 hd2
        obtain ⟨harb, harc, hrstored, hrd1, hrd2⟩ := avl_node har
        by_cases hbf : balanceFactor (.node rb rq rqdw rc rrh) ≤ 0
        · rw [if_pos hbf]
          rw [balanceFactor_node] at hbf
          obtain ⟨havl, hcase1, hcase2⟩ :=
            rotateLeft_spec l key dw rb rq rqdw rc rrh _ hal har (by omega) (by omega)
          refine ⟨havl, ?_, ?_, ?_⟩
          · rcases Nat.lt_or_ge (getHeight rb) (getHeight rc) with hc | hc
            · rw [hcase1 hc]; simp only [getHeight_node]; omega
            · rw [hcase2 (by omega)]; simp only [getHeight_node]; omega
          · rcases Nat.lt_or_ge (getHeight rb) (getHeight rc) with hc | hc
            · rw [hcase1 hc]; simp only [getHeight_node]; omega
            · rw [hcase2 (by omega)]; simp only [getHeight_node]; omega
          · intro _ habs
            simp only [getHeight_node] at habs
            omega
        · rw [if_neg hbf]
          rw [balanceFactor_node] at hbf
          cases rb with
          | leaf =>
            exfalso
            simp [getHeight] at hbf
          | node b1 bq bqdw b2 bbh =>
            obtain ⟨havl, hh2⟩ :=
              rotateRL_spec l key dw b1 bq bqdw b2 bbh rq rqdw rc rrh _ hal har (by omega)
                (by simp only [getHeight_node] at hbf ⊢; omega)
            refine ⟨havl, ?_, ?_, ?_⟩
            · rw [hh2]; simp only [getHeight_node]; omega
            · rw [hh2]; simp only [getHeight_node]; omega
            · intro _ habs
              simp only [getHeight_node] at habs
              omega
    · rw [if_neg hgt, if_neg hlt2]
      refine ⟨⟨hal, har, rfl, by omega, by omega⟩, ?_, ?_, fun _ _ => ?_⟩ <;>
        simp only [getHeight_node] <;> omega

theorem delete_avl (t : Node) : ∀ k, Avl t →
    Avl (deleteRec t k).1 ∧
    (getHeight (deleteRec t k).1 = getHeight t ∨ getHeight (deleteRec t k).1 + 1 = getHeight t) := by
  induction t with
  | leaf => intro k _; exact ⟨trivial, Or.inl rfl⟩
  | node l key dw r h ihl ihr =>
    intro k ha
    obtain ⟨hal, har, hstored, hb1, hb2⟩ := avl_node ha
    by_cases h1 : strLt k key
    · rw [deleteRec_lt h1]
      obtain ⟨hal2, hh⟩ := ihl k hal
      obtain ⟨havl, hlow, hhigh, hexact⟩ :=
        deleteRebalance_spec (deleteRec l k).1 key dw r hal2 har (by omega) (by omega)
      refine ⟨havl, ?_⟩
      simp only [getHeight_node]
      by_cases hbal2 : getHeight (deleteRec l k).1 ≤ getHeight r + 1 ∧
          getHeight r ≤ getHeight (deleteRec l k).1 + 1
      · have he := hexact hbal2.1 hbal2.2
        omega
      · push_neg at hbal2
        omega
    · by_cases h2 : strLt key k
      · rw [deleteRec_gt h1 h2]
        obtain ⟨har2, hh⟩ := ihr k har
        obtain ⟨havl, hlow, hhigh, hexact⟩ :=
          deleteRebalance_spec l key dw (deleteRec r k).1 hal har2 (by omega) (by omega)
        refine ⟨havl, ?_⟩
        simp only [getHeight_node]
        by_cases hbal2 : getHeight l ≤ getHeight (deleteRec r k).1 + 1 ∧
            getHeight (deleteRec r k).1 ≤ getHeight l + 1
        · have he := hexact hbal2.1 hbal2.2
          omega
        · push_neg at hbal2
          omega
      · cases l with
        | leaf =>
          rw [deleteRec_found_noleft h1 h2]
          refine ⟨har, Or.inr ?_⟩
          simp only [getHeight_node, getHeight_leaf] at hstored ⊢
          omega
        | node a b c d e =>
          cases r with
          | leaf =>
            rw [deleteRec_found_noright h1 h2]
            refine ⟨hal, Or.inr ?_⟩
            simp only [getHeight_node, getHeight_leaf] at hstored ⊢
            omega
          | node a2 b2 c2 d2 e2 =>
            rw [deleteRec_found_two h1 h2]
            obtain ⟨har2, hh⟩ := ihr (keyOf (getMinNode (.node a2 b2 c2 d2 e2))) har
            obtain ⟨havl, hlow, hhigh, hexact⟩ :=
              deleteRebalance_spec (.node a b c d e)
                (keyOf (getMinNode (.node a2 b2 c2 d2 e2)))
                (dwOf (getMinNode (.node a2 b2 c2 d2 e2)))
                (deleteRec (.node a2 b2 c2 d2 e2) (keyOf (getMinNode (.node a2 b2 c2 d2 e2)))).1
                hal har2 (by omega) (by omega)
            refine ⟨havl, ?_⟩
            simp only [getHeight_node]
            by_cases hbal2 : getHeight (Node.node a b c d e) ≤
                getHeight (deleteRec (.node a2 b2 c2 d2 e2)
                  (keyOf (getMinNode (.node a2 b2 c2 d2 e2)))).1 + 1 ∧
                getHeight (deleteRec (.node a2 b2 c2 d2 e2)
                  (keyOf (getMinNode (.node a2 b2 c2 d2 e2)))).1 ≤
                  getHeight (Node.node a b c d e) + 1
            · have he := hexact hbal2.1 hbal2.2
              omega
            · push_neg at hbal2
              omega

end Avl

namespace Avl

theorem insert_root_eq (t : Tree) (k : String) :
    (t.insert k).1.root = (insertRec t.root k).1 := by
  rw [Tree.insert]
  split <;> rfl

theorem insert_size_eq (t : Tree) (k : String) :
    (t.insert k).1.size = t.size + ((insertRec t.root k).2 : Int) := by
  rw [Tree.insert]
  split <;> rfl

theorem delete_root_eq (t : Tree) (k : String) :
    (t.delete k).1.root =
      if searchRec t.root k then (deleteRec t.root k).1 else t.root := by
  rw [Tree.delete]
  by_cases hs : searchRec t.root k
  · rw [if_neg (by simp [hs]), if_pos hs]
    split <;> rfl
  · rw [if_pos (by simp [hs]), if_neg hs]

theorem wf_empty : WF Tree.empty := by
  constructor
  · simp [BstP, inOrder, Tree.empty]
  · exact trivial

theorem wf_applyOp (t : Tree) (op : Op) (h : WF t) : WF (applyOp t op) := by
  cases op with
  | ins k =>
    constructor
    · rw [applyOp, insert_root_eq]
      exact bst_insert t.root k h.1
    · rw [applyOp, insert_root_eq]
      exact (insert_avl t.root k h.2).1
  | del k =>
    constructor
    · rw [applyOp, delete_root_eq]
      split
      · exact bst_delete t.root k h.1
      · exact h.1
    · rw [applyOp, delete_root_eq]
      split
      · exact (delete_avl t.root k h.2).1
      · exact h.2

theorem wf_foldl (ops : List Op) : ∀ t : Tree, WF t → WF (ops.foldl applyOp t) := by
  induction ops with
  | nil => intro t h; exact h
  | cons op rest ih =>
    intro t h
    exact ih (applyOp t op) (wf_applyOp t op h)

theorem wf_runOps (ops : List Op) : WF (runOps ops) :=
  wf_foldl ops Tree.empty wf_empty

end Avl

/-- C3: after any finite sequence of insert and delete operations starting
from the empty tree, every node satisfies the AVL conditions: the stored
height field equals 1 + max of the children's stored heights (an absent child
counting as height 0), and the children's heights differ by at most one. -/
theorem spec_c3_avl_invariant (ops : List Avl.Op) : Avl.Avl (Avl.runOps ops).root :=
  (Avl.wf_runOps ops).2

/-- C4: for every tree state reachable from the empty tree by insert and
delete operations, `in_order_traversal` returns a key sequence that is
strictly increasing under the raw code-point string comparison, and hence
contains no duplicates. -/
theorem spec_c4_bst_invariant (ops : List Avl.Op) :
    (Avl.inOrder (Avl.runOps ops).root).Pairwise (· < ·) ∧
    (Avl.inOrder (Avl.runOps ops).root).Nodup := by
  have hp := (Avl.wf_runOps ops).1
  constructor
  · exact hp.imp (fun hab => (strLt_iff _ _).mp hab)
  · exact hp.imp (fun hab => strLt_ne hab)

/-- C2 counterexample: the claim says `insert` reports failure for any root
whose length is not exactly 3 characters, but `AVLTree.insert` performs no
length validation at all (that check lives in the API layer), so inserting
the absent 2-character root "ab" into the empty tree succeeds. -/
theorem spec_c2_counterexample :
    ("ab" : String).length ≠ 3 ∧
    (Avl.Tree.empty.insert "ab").2.1 = true ∧
    (Avl.Tree.empty.insert "ab").1.size = 1 := by
  refine ⟨by decide, by decide, by decide⟩

/-- C2 as amended: for every root string whose length is not exactly 3,
`update` (which length-checks its new-root argument) reports failure and
`applyRootToPattern` (and with it the inline substitute loop) returns the
empty string; `insert`, however, performs no length validation and succeeds
whenever the key is absent. -/
theorem spec_c2_amended (root : String) (hlen : root.length ≠ 3) :
    (∀ (t : Avl.Tree) (oldR : String), (t.update oldR root).2.1 = false) ∧
    (∀ pattern : String, Morph.applyRootToPattern root pattern = "") ∧
    (∀ t : Avl.Tree, Avl.searchRec t.root root = false → (t.insert root).2.1 = true) := by
  refine ⟨?_, ?_, ?_⟩
  · intro t oldR
    rw [Avl.Tree.update, if_pos hlen]
  · intro pattern
    rw [Morph.applyRootToPattern]
    split
    · rename_i fa ayn lam heq
      exfalso
      apply hlen
      rw [show root.length = root.toList.length from rfl, heq]
      rfl
    · rfl
  · intro t hs
    have hdelta : (Avl.insertRec t.root root).2 = 1 := by
      rw [Avl.insertRec_delta, hs]
      rfl
    rw [Avl.Tree.insert, hdelta]
    rw [if_pos (by omega)]

/-- Witness for C2's amended theorem at the 2-character root "ab". -/
theorem spec_c2_amended_witness :
    ("ab" : String).length ≠ 3 ∧
    ((Avl.runOps [.ins "aaa"]).update "aaa" "ab").2.1 = false ∧
    Morph.applyRootToPattern "ab" "فَاعِل" = "" ∧
    (Avl.Tree.empty.insert "ab").2.1 = true := by
  have h := spec_c2_amended "ab" (by decide)
  exact ⟨by decide, h.1 _ "aaa", h.2.1 "فَاعِل", h.2.2 _ (by decide)⟩

/-- C8: inserting `r` makes `search(r)` return true (whether or not the
insert created a node), and re-inserting an already-present `r` returns the
failure flag with the already-exists message and leaves the size counter
unchanged. -/
theorem spec_c8_insert_search (t : Avl.Tree) (r : String) (hw : Avl.WF t) :
    Avl.Tree.search (t.insert r).1 r = true ∧
    (Avl.Tree.search t r = true →
      (t.insert r).2.1 = false ∧
      (t.insert r).2.2 = Avl.RootMsg.alreadyExists r ∧
      (t.insert r).1.size = t.size) := by
  constructor
  · rw [Avl.Tree.search, Avl.insert_root_eq]
    rw [Avl.searchRec_iff _ _ (Avl.bst_insert t.root r hw.1)]
    exact Avl.mem_inOrder_insertRec_self t.root r
  · intro hs
    rw [Avl.Tree.search] at hs
    have hdelta : (Avl.insertRec t.root r).2 = 0 := by
      rw [Avl.insertRec_delta, hs]
      rfl
    rw [Avl.Tree.insert, hdelta]
    rw [if_neg (by omega)]
    refine ⟨rfl, rfl, by simp⟩

/-- Witness for C8 at a concrete two-element tree and the root "bbb". -/
theorem spec_c8_insert_search_witness :
    Avl.WF (Avl.runOps [.ins "bbb", .ins "aaa"]) ∧
    (Avl.Tree.search ((Avl.runOps [.ins "bbb", .ins "aaa"]).insert "bbb").1 "bbb" = true ∧
     (Avl.Tree.search (Avl.runOps [.ins "bbb", .ins "aaa"]) "bbb" = true →
       ((Avl.runOps [.ins "bbb", .ins "aaa"]).insert "bbb").2.1 = false ∧
       ((Avl.runOps [.ins "bbb", .ins "aaa"]).insert "bbb").2.2 =
         Avl.RootMsg.alreadyExists "bbb" ∧
       ((Avl.runOps [.ins "bbb", .ins "aaa"]).insert "bbb").1.size =
         (Avl.runOps [.ins "bbb", .ins "aaa"]).size)) :=
  ⟨by decide, spec_c8_insert_search (Avl.runOps [.ins "bbb", .ins "aaa"]) "bbb" (by decide)⟩

namespace Avl

theorem getNode_keyOf (t : Node) (k : String) (n : Node) (h : getNode t k = some n) :
    keyOf n = k := by
  induction t with
  | leaf => simp [getNode] at h
  | node l key dw r hh ihl ihr =>
    rw [getNode] at h
    by_cases hek : k = key
    · rw [if_pos hek] at h
      injection h with h
      rw [← h, keyOf_node, hek]
    · rw [if_neg hek] at h
      by_cases h1 : strLt k key
      · rw [if_pos h1] at h
        exact ihl h
      · rw [if_neg h1] at h
        exact ihr h

theorem searchRec_eq_getNode_isSome (t : Node) (k : String) :
    searchRec t k = (getNode t k).isSome := by
  induction t with
  | leaf => simp [searchRec, getNode]
  | node l key dw r hh ihl ihr =>
    by_cases hek : k = key
    · simp [searchRec, getNode, hek]
    · by_cases h1 : strLt k key
      · simp [searchRec, getNode, hek, h1, ihl]
      · simp [searchRec, getNode, hek, h1, ihr]

theorem getNode_bst (t : Node) (k : String) (n : Node) (hb : BstP t)
    (h : getNode t k = some n) : BstP n := by
  induction t with
  | leaf => simp [getNode] at h
  | node l key dw r hh ihl ihr =>
    obtain ⟨hpl, hpr, hlk, hkr⟩ := bstP_node hb
    rw [getNode] at h
    by_cases hek : k = key
    · rw [if_pos hek] at h
      injection h with h
      rw [← h]
      exact hb
    · rw [if_neg hek] at h
      by_cases h1 : strLt k key
      · rw [if_pos h1] at h
        exact ihl hpl h
      · rw [if_neg h1] at h
        exact ihr hpr h

theorem getNode_sub_mem (t : Node) (k : String) (n : Node)
    (h : getNode t k = some n) : ∀ x ∈ inorderP n, x ∈ inorderP t := by
  induction t with
  | leaf => simp [getNode] at h
  | node l key dw r hh ihl ihr =>
    rw [getNode] at h
    by_cases hek : k = key
    · rw [if_pos hek] at h
      injection h with h
      rw [← h]
      intro x hx
      exact hx
    · rw [if_neg hek] at h
      by_cases h1 : strLt k key
      · rw [if_pos h1] at h
        intro x hx
        rw [show inorderP (.node l key dw r hh) = inorderP l ++ (key, dw) :: inorderP r from rfl]
        exact List.mem_append.mpr (Or.inl (ihl h x hx))
      · rw [if_neg h1] at h
        intro x hx
        rw [show inorderP (.node l key dw r hh) = inorderP l ++ (key, dw) :: inorderP r from rfl]
        exact List.mem_append.mpr (Or.inr (List.mem_cons_of_mem _ (ihr h x hx)))

theorem mem_eraseKey_of_ne {l : List (String × DWMap)} {x : String × DWMap} {k : String}
    (hx : x ∈ l) (hne : x.1 ≠ k) : x ∈ eraseKey l k := by
  induction l with
  | nil => cases hx
  | cons a rest ih =>
    rw [eraseKey]
    by_cases ha : (a.1 == k) = true
    · rw [@List.eraseP_cons_of_pos _ a rest (fun p => p.1 == k) ha]
      rcases List.mem_cons.mp hx with rfl | hm
      · exact absurd (by simpa using ha) hne
      · exact hm
    · rw [@List.eraseP_cons_of_neg _ a rest (fun p => p.1 == k) ha]
      rcases List.mem_cons.mp hx with rfl | hm
      · exact List.mem_cons_self _ _
      · exact List.mem_cons_of_mem _ (ih hm)

theorem tree_delete_found (t : Tree) (k : String) (hb : BstP t.root)
    (hs : searchRec t.root k = true) :
    (t.delete k).2.1 = true ∧ (t.delete k).2.2 = RootMsg.deletedOk k ∧
    (t.delete k).1.root = (deleteRec t.root k).1 ∧
    (t.delete k).1.size = t.size - 1 := by
  have hdelta : (deleteRec t.root k).2 = -1 := by
    rw [deleteRec_delta t.root k hb, hs]
    rfl
  rw [Tree.delete, if_neg (by simp [hs]), hdelta]
  rw [if_pos (by omega)]
  refine ⟨rfl, rfl, rfl, by simp; omega⟩

end Avl

/-- C5: deleting a present key whose node has two children succeeds, shrinks
the size counter by exactly one, removes precisely that key's entry from the
in-order (key, derived-words) sequence — so every other key, in particular
the in-order successor, keeps its exact derived-words map — and the
successor's pair (the minimum of the right subtree, which the code copies
into the deleted node before removing the successor node) is still present
afterwards. -/
theorem spec_c5_delete_two_children (t : Avl.Tree) (k : String)
    (l : Avl.Node) (key : String) (dw : Avl.DWMap) (r : Avl.Node) (h : Nat)
    (hw : Avl.WF t)
    (hfind : Avl.getNode t.root k = some (.node l key dw r h))
    (hl : l ≠ Avl.Node.leaf) (hr : r ≠ Avl.Node.leaf) :
    (t.delete k).2.1 = true ∧
    (t.delete k).1.size = t.size - 1 ∧
    Avl.inorderP (t.delete k).1.root = Avl.eraseKey (Avl.inorderP t.root) k ∧
    (Avl.keyOf (Avl.getMinNode r), Avl.dwOf (Avl.getMinNode r)) ∈
      Avl.inorderP (t.delete k).1.root := by
  have hs : Avl.searchRec t.root k = true := by
    rw [Avl.searchRec_eq_getNode_isSome, hfind]
    rfl
  obtain ⟨hok, hmsg, hroot, hsize⟩ := Avl.tree_delete_found t k hw.1 hs
  have hkey : key = k := by
    have := Avl.getNode_keyOf t.root k _ hfind
    rwa [Avl.keyOf_node] at this
  have hbn : Avl.BstP (.node l key dw r h) := Avl.getNode_bst t.root k _ hw.1 hfind
  obtain ⟨hpl, hpr, hlk, hkr⟩ := Avl.bstP_node hbn
  have herase : Avl.inorderP (t.delete k).1.root = Avl.eraseKey (Avl.inorderP t.root) k := by
    rw [hroot, Avl.inorderP_deleteRec t.root k hw.1]
  refine ⟨hok, hsize, herase, ?_⟩
  rw [herase]
  rcases Avl.inorderP_getMinNode r hr with ⟨rest, hrest⟩
  have hmem_r : (Avl.keyOf (Avl.getMinNode r), Avl.dwOf (Avl.getMinNode r)) ∈ Avl.inorderP r := by
    rw [hrest]
    exact List.mem_cons_self _ _
  have hmem_n : (Avl.keyOf (Avl.getMinNode r), Avl.dwOf (Avl.getMinNode r)) ∈
      Avl.inorderP (.node l key dw r h) := by
    rw [show Avl.inorderP (.node l key dw r h) =
      Avl.inorderP l ++ (key, dw) :: Avl.inorderP r from rfl]
    exact List.mem_append.mpr (Or.inr (List.mem_cons_of_mem _ hmem_r))
  have hmem_t := Avl.getNode_sub_mem t.root k _ hfind _ hmem_n
  refine Avl.mem_eraseKey_of_ne hmem_t ?_
  have hmk : Avl.keyOf (Avl.getMinNode r) ∈ Avl.inOrder r :=
    Avl.keyOf_getMinNode_mem r hr
  have := hkr _ hmk
  rw [hkey] at this
  exact fun he => strLt_ne this he.symm

/-- Witness for C5: deleting the two-children root "ddd" of a concrete
three-element tree. -/
theorem spec_c5_delete_two_children_witness :
    Avl.WF (Avl.runOps [.ins "ddd", .ins "bbb", .ins "fff"]) ∧
    Avl.getNode (Avl.runOps [.ins "ddd", .ins "bbb", .ins "fff"]).root "ddd" =
      some (.node (.node .leaf "bbb" [] .leaf 1) "ddd" [] (.node .leaf "fff" [] .leaf 1) 2) ∧
    (((Avl.runOps [.ins "ddd", .ins "bbb", .ins "fff"]).delete "ddd").2.1 = true ∧
     ((Avl.runOps [.ins "ddd", .ins "bbb", .ins "fff"]).delete "ddd").1.size =
       (Avl.runOps [.ins "ddd", .ins "bbb", .ins "fff"]).size - 1 ∧
     Avl.inorderP ((Avl.runOps [.ins "ddd", .ins "bbb", .ins "fff"]).delete "ddd").1.root =
       Avl.eraseKey (Avl.inorderP (Avl.runOps [.ins "ddd", .ins "bbb", .ins "fff"]).root) "ddd" ∧
     (Avl.keyOf (Avl.getMinNode (.node .leaf "fff" [] .leaf 1)),
       Avl.dwOf (Avl.getMinNode (.node .leaf "fff" [] .leaf 1))) ∈
       Avl.inorderP ((Avl.runOps [.ins "ddd", .ins "bbb", .ins "fff"]).delete "ddd").1.root) :=
  ⟨by decide, by decide,
    spec_c5_delete_two_children (Avl.runOps [.ins "ddd", .ins "bbb", .ins "fff"]) "ddd"
      (.node .leaf "bbb" [] .leaf 1) "ddd" [] (.node .leaf "fff" [] .leaf 1) 2
      (by decide) (by decide) (by decide) (by decide)⟩

/-- C6: `update(old, new)` fails exactly when `new` is not 3 characters
long, or `old` is absent, or `new` is already present and differs from
`old`, or `old` equals `new`; and on success the derived-words map that was
attached to `old` beforehand is exactly the map attached to `new`
afterwards. -/
theorem spec_c6_update (t : Avl.Tree) (o n : String) (hw : Avl.WF t) :
    ((t.update o n).2.1 = false ↔
      (n.length ≠ 3 ∨ Avl.searchRec t.root o = false ∨
        (Avl.searchRec t.root n = true ∧ o ≠ n) ∨ o = n)) ∧
    ((t.update o n).2.1 = true →
      Avl.getDW (t.update o n).1.root n = Avl.getDW t.root o) := by
  by_cases hc1 : n.length ≠ 3
  · rw [Avl.Tree.update, if_pos hc1]
    refine ⟨by simp [hc1], by simp⟩
  · by_cases hc2 : Avl.searchRec t.root o = false
    · rw [Avl.Tree.update, if_neg hc1, if_pos (by simp [hc2])]
      refine ⟨by simp [hc1, hc2], by simp⟩
    · have ho : Avl.searchRec t.root o = true := by
        revert hc2
        cases Avl.searchRec t.root o <;> simp
      by_cases hc3 : Avl.searchRec t.root n = true ∧ o ≠ n
      · rw [Avl.Tree.update, if_neg hc1, if_neg (by simp [ho]), if_pos hc3]
        refine ⟨by simp [hc3], by simp⟩
      · by_cases hc4 : o = n
        · rw [Avl.Tree.update, if_neg hc1, if_neg (by simp [ho]), if_neg hc3, if_pos hc4]
          refine ⟨by simp [hc4], by simp⟩
        · -- success path
          have hn : Avl.searchRec t.root n = false := by
            rcases hsn : Avl.searchRec t.root n with _ | _
            · rfl
            · exact absurd ⟨hsn, hc4⟩ hc3
          obtain ⟨hok, hmsg, hroot, hsize⟩ := Avl.tree_delete_found t o hw.1 ho
          rw [Avl.Tree.update, if_neg hc1, if_neg (by simp [ho]), if_neg hc3, if_neg hc4,
            if_pos (by rw [hok])]
          constructor
          · simp [hc1, hc2, hc3, hc4, ho, hn]
          · intro _
            -- the backed-up map is the one attached to o
            have hsome : (Avl.getDW t.root o).isSome := by
              rw [← Avl.searchRec_eq_isSome, ho]
            rcases hdw : Avl.getDW t.root o with _ | m
            · rw [hdw] at hsome
              simp at hsome
            · -- evaluate the new tree
              have hb1 : Avl.BstP (t.delete o).1.root := by
                rw [hroot]
                exact Avl.bst_delete t.root o hw.1
              have hb2 : Avl.BstP ((t.delete o).1.insert n).1.root := by
                rw [Avl.insert_root_eq]
                exact Avl.bst_insert _ n hb1
              have hmem : n ∈ Avl.inOrder ((t.delete o).1.insert n).1.root := by
                rw [Avl.insert_root_eq]
                exact Avl.mem_inOrder_insertRec_self _ n
              have hsearch2 : Avl.searchRec ((t.delete o).1.insert n).1.root n = true := by
                rw [Avl.searchRec_iff _ _ hb2]
                exact hmem
              have hsome2 : (Avl.getDW ((t.delete o).1.insert n).1.root n).isSome := by
                rw [← Avl.searchRec_eq_isSome, hsearch2]
              simp only
              rw [Avl.getDW_setDW]
              rcases hdw2 : Avl.getDW ((t.delete o).1.insert n).1.root n with _ | m2
              · rw [hdw2] at hsome2
                simp at hsome2
              · simp [hdw, hdw2]

/-- Witness for C6 at a concrete two-element tree, renaming "aaa" to "ccc". -/
theorem spec_c6_update_witness :
    Avl.WF (Avl.runOps [.ins "aaa", .ins "bbb"]) ∧
    ((((Avl.runOps [.ins "aaa", .ins "bbb"]).update "aaa" "ccc").2.1 = false ↔
      (("ccc" : String).length ≠ 3 ∨
        Avl.searchRec (Avl.runOps [.ins "aaa", .ins "bbb"]).root "aaa" = false ∨
        (Avl.searchRec (Avl.runOps [.ins "aaa", .ins "bbb"]).root "ccc" = true ∧
          ("aaa" : String) ≠ "ccc") ∨
        ("aaa" : String) = "ccc")) ∧
     (((Avl.runOps [.ins "aaa", .ins "bbb"]).update "aaa" "ccc").2.1 = true →
       Avl.getDW ((Avl.runOps [.ins "aaa", .ins "bbb"]).update "aaa" "ccc").1.root "ccc" =
         Avl.getDW (Avl.runOps [.ins "aaa", .ins "bbb"]).root "aaa")) :=
  ⟨by decide, spec_c6_update (Avl.runOps [.ins "aaa", .ins "bbb"]) "aaa" "ccc" (by decide)⟩
